import Mathlib

/-!
Verification of the document content model and its conversions
(ProsemirrorHelper, the attachment node and the mention node) of a
collaborative document wiki.

The development shallow-embeds the relevant TypeScript sources:

* `server/models/helpers/ProsemirrorHelper.tsx` — `toProsemirror`,
  `parseMentions`, `parseAttachmentIds`, `removeMarks`,
  `replaceInternalUrls`, `signAttachmentUrls`, `toPdfHtml`;
* `shared/editor/nodes/Attachment.tsx` — the attachment node's
  `toMarkdown` / `parseMarkdown`;
* the `Mention` extension — `toMarkdown` / `parseMarkdown` and the
  id-uniqueness repair plugin.

Code of the repository that is not part of the sources at hand (the
markdown-it tokenizer and serializer framework, the attachment-redirect
regex, `isInternalUrl`, the basic node schemas) is modelled from the
spec; each such definition carries a doc comment starting with
`Modelled from the spec:`.

Strings are processed as `List Char` (`String` in this Lean version is
a structure wrapping `List Char`, so the two views are definitionally
interchangeable).
-/

namespace Spec2Proof

/-! ## Generic list utilities -/

/-- Split a list at every element satisfying `p`; the separators are
dropped and the (possibly empty) runs between them are returned.
`splitBy p l` is never `[]`. -/
def splitBy (p : α → Bool) : List α → List (List α)
  | [] => [[]]
  | a :: rest =>
    match splitBy p rest with
    | [] => [[]]
    | g :: gs => if p a then [] :: g :: gs else (a :: g) :: gs

/-- Helper for `uniqFirst`: keep elements not yet seen. -/
def uniqFirstAux [DecidableEq α] (seen : List α) : List α → List α
  | [] => []
  | x :: xs =>
    if x ∈ seen then uniqFirstAux seen xs
    else x :: uniqFirstAux (x :: seen) xs

/-- First-occurrence deduplication, as lodash `uniq` behaves. -/
def uniqFirst [DecidableEq α] (l : List α) : List α :=
  uniqFirstAux [] l

/-- Helper for `dedupFirstBy`: keep elements whose key is not yet
seen. -/
def dedupFirstByAux [DecidableEq β] (key : α → β) (seen : List β) :
    List α → List α
  | [] => []
  | x :: xs =>
    if key x ∈ seen then dedupFirstByAux key seen xs
    else x :: dedupFirstByAux key (key x :: seen) xs

/-- First-occurrence deduplication keyed through `key`: keeps the first
element carrying each key value. -/
def dedupFirstBy [DecidableEq β] (key : α → β) (l : List α) : List α :=
  dedupFirstByAux key [] l

/-- Join pieces with a separator list between consecutive pieces. -/
def joinSep (sep : List α) : List (List α) → List α
  | [] => []
  | [g] => g
  | g :: gs => g ++ sep ++ joinSep sep gs

/-- Does `pat` occur as a contiguous sublist of `l`? -/
def containsSub [DecidableEq α] (l pat : List α) : Bool :=
  match l with
  | [] => pat = []
  | _ :: rest => pat.isPrefixOf l || containsSub rest pat

/-- Split `l` at the first occurrence of `pat`, returning the part
before and the part after the occurrence. -/
def splitFirstSub [DecidableEq α] (l pat : List α) :
    Option (List α × List α) :=
  match l with
  | [] => if pat = [] then some ([], []) else none
  | a :: rest =>
    if pat.isPrefixOf l then some ([], l.drop pat.length)
    else
      match splitFirstSub rest pat with
      | some (pre, post) => some (a :: pre, post)
      | none => none

/-! ## Character utilities -/

/-- JS whitespace for `String.prototype.trim` purposes (the characters
that occur in this model). -/
def isSpaceChar (c : Char) : Bool :=
  c = ' ' || c = '\t' || c = '\n' || c = '\r'

/-- `String.prototype.trim`: strip whitespace from both ends. -/
def trimChars (l : List Char) : List Char :=
  ((l.dropWhile isSpaceChar).reverse.dropWhile isSpaceChar).reverse

/-- Prefix test on strings (JS `String.prototype.startsWith`). -/
def jsStartsWith (s pre : String) : Bool :=
  pre.data.isPrefixOf s.data

/-- Suffix test on strings (JS `String.prototype.endsWith`). -/
def jsEndsWith (s suffix : String) : Bool :=
  suffix.data.isSuffixOf s.data

/-- Numeric value of a list of decimal digits (the behaviour of JS
`parseInt(s, 10)` on an all-digit string). -/
def digitsToNat (l : List Char) : Nat :=
  l.foldl (fun acc c => acc * 10 + (c.toNat - '0'.toNat)) 0

/-- Hex digit value, `none` for non-hex characters. -/
def hexVal (c : Char) : Option Nat :=
  if '0' ≤ c ∧ c ≤ '9' then some (c.toNat - '0'.toNat)
  else if 'a' ≤ c ∧ c ≤ 'f' then some (c.toNat - 'a'.toNat + 10)
  else if 'A' ≤ c ∧ c ≤ 'F' then some (c.toNat - 'A'.toNat + 10)
  else none

/-- `decodeURIComponent` modelled at the byte-as-code-point level: each
`%hh` escape is replaced by the character with that code; a malformed
escape makes the whole decode fail (JS throws `URIError`). Multi-byte
UTF-8 sequences are not reassembled — the inputs of interest here are
ASCII. -/
def percentDecode : List Char → Option (List Char)
  | [] => some []
  | '%' :: h1 :: h2 :: rest => do
    let v1 ← hexVal h1
    let v2 ← hexVal h2
    let tail ← percentDecode rest
    pure (Char.ofNat (v1 * 16 + v2) :: tail)
  | '%' :: _ => none
  | c :: rest => (percentDecode rest).map (c :: ·)

/-! ## The Prosemirror data model

The persisted document format (spec §6): a node has a `type`, an
`attrs` mapping of attribute name to primitive value, an optional
`marks` list (each mark again a type plus attrs) and either child
`content` or a `text` payload. -/

/-- A primitive attribute value: string, number, boolean or null.
Absent attributes (JS `undefined`) are represented by `Option.none` at
the lookup sites. -/
inductive AttrValue
  | str (s : String)
  | num (n : Int)
  | bool (b : Bool)
  | null
deriving DecidableEq, Repr

/-- JS truthiness of a present attribute value. -/
def AttrValue.truthy : AttrValue → Bool
  | .str s => s ≠ ""
  | .num n => n ≠ 0
  | .bool b => b
  | .null => false

/-- JS truthiness of a possibly absent value (`undefined` is falsy). -/
def jsTruthy : Option AttrValue → Bool
  | none => false
  | some v => v.truthy

/-- JS `String(v)` coercion for a primitive value. -/
def AttrValue.jsString : AttrValue → String
  | .str s => s
  | .num n => toString n
  | .bool b => if b then "true" else "false"
  | .null => "null"

/-- An inline mark: a type name plus its attribute mapping. -/
structure MarkData where
  type : String
  attrs : List (String × AttrValue)
deriving DecidableEq, Repr

/-- Look up an attribute by name (JS property read: absent means
`undefined`). -/
def attrGet (attrs : List (String × AttrValue)) (name : String) :
    Option AttrValue :=
  (attrs.find? (fun p => p.1 = name)).map (·.2)

/-- A document tree node in the persisted JSON shape. `marks = []`
stands for an absent or empty marks array (indistinguishable to the
functions modelled here), `text = none` for a non-text node. -/
inductive PMData
  | node (typeName : String) (attrs : List (String × AttrValue))
      (marks : List MarkData) (content : List PMData)
      (text : Option String)
deriving Repr

instance : Inhabited PMData := ⟨.node "" [] [] [] none⟩

def PMData.typeName : PMData → String
  | .node t _ _ _ _ => t

def PMData.attrs : PMData → List (String × AttrValue)
  | .node _ a _ _ _ => a

def PMData.marks : PMData → List MarkData
  | .node _ _ m _ _ => m

def PMData.content : PMData → List PMData
  | .node _ _ _ c _ => c

def PMData.text : PMData → Option String
  | .node _ _ _ _ tx => tx

def PMData.attr (n : PMData) (name : String) : Option AttrValue :=
  attrGet n.attrs name

/-! ## parseAttachmentIds (ProsemirrorHelper.tsx lines 555–589)

`doc.descendants` visits every descendant of the document node in
depth-first pre-order; the callback never returns `false` here, so the
traversal descends everywhere.  For each visited node the source pushes
every truthy `href` of a `link` mark, the truthy `src` of `image` and
`video` nodes, and the truthy `href` of `attachment` nodes; the
collected URLs then run through the attachment-redirect regex and the
extracted ids are deduplicated with `uniq`. -/

/-- The URLs pushed for one visited node, in source order: link-mark
hrefs, then image/video `src`, then attachment `href`.  Only string
values can flow into `url.matchAll` without throwing, and all URLs in
documents are strings, so the collection keeps string values only. -/
def nodeUrls (n : PMData) : List String :=
  (n.marks.filterMap (fun m =>
    if m.type = "link" then
      match attrGet m.attrs "href" with
      | some (.str s) => if s ≠ "" then some s else none
      | _ => none
    else none)) ++
  (if n.typeName = "image" ∨ n.typeName = "video" then
    match n.attr "src" with
    | some (.str s) => if s ≠ "" then [s] else []
    | _ => []
  else []) ++
  (if n.typeName = "attachment" then
    match n.attr "href" with
    | some (.str s) => if s ≠ "" then [s] else []
    | _ => []
  else [])

mutual
/-- URLs collected from a node and its whole subtree, pre-order. -/
def collectUrlsNode : PMData → List String
  | .node t a m c tx => nodeUrls (.node t a m c tx) ++ collectUrlsList c

def collectUrlsList : List PMData → List String
  | [] => []
  | n :: rest => collectUrlsNode n ++ collectUrlsList rest
end

/-- URLs collected by `doc.descendants` (the document node itself is
not visited). -/
def collectUrls (doc : PMData) : List String :=
  collectUrlsList doc.content

/-- Characters allowed in an attachment id by the redirect regex
(UUID-style: hex digits and dashes). -/
def isIdChar (c : Char) : Bool :=
  c.isDigit || ('a' ≤ c ∧ c ≤ 'f') || c = '-'

/-- The marker the attachment-redirect pattern looks for. -/
def redirectMarker : List Char := "/attachments.redirect?id=".data

/-- Modelled from the spec: the shared `attachmentRedirectRegex`
(imported from `@shared/utils/ProsemirrorHelper`, not among the
sources).  Spec §6: "Attachment URL convention:
`<path>/attachments.redirect?id=<attachmentId>` — any URL matching
this pattern is treated as a reference to a stored attachment by id."
`matchAll` semantics: every occurrence of the marker contributes the
id characters that follow it (empty runs yield no id).  The scan may
simply advance one character at a time: the marker starts with `/`,
which is neither an id character nor an inner marker character, so no
spurious second match can begin inside a matched region. -/
def extractAttachmentIds : List Char → List String
  | [] => []
  | c :: rest =>
    if redirectMarker.isPrefixOf (c :: rest) then
      let post := rest.drop (redirectMarker.length - 1)
      let idChars := post.takeWhile isIdChar
      (if idChars = [] then [] else [String.mk idChars]) ++
        extractAttachmentIds rest
    else extractAttachmentIds rest

/-- `ProsemirrorHelper.parseAttachmentIds`: collect all URLs, extract
every id matching the redirect pattern, deduplicate keeping first
occurrences. -/
def parseAttachmentIds (doc : PMData) : List String :=
  uniqFirst ((collectUrls doc).flatMap (fun u => extractAttachmentIds u.data))

/-! ## parseMentions (ProsemirrorHelper.tsx lines 262–294)

The traversal visits descendants depth-first; a node that is an
applicable mention is recorded and its subtree skipped; any other node
is descended into (the source's early `return false` on empty content
is behaviourally the same as descending into no children). -/

/-- One side of the option filter.  The source checks
`options?.type && options.type !== node.attrs.type` — an empty-string
filter value is falsy in JS and therefore ignored. -/
def filterRejects (field : String) (want : Option String)
    (attrs : List (String × AttrValue)) : Bool :=
  match want with
  | none => false
  | some t => t ≠ "" && attrGet attrs field ≠ some (.str t)

/-- `isApplicableNode` from the source: a mention node, passing the
filter, whose id has not been collected yet. -/
def isApplicableMention (optType optModelId : Option String)
    (mentions : List (List (String × AttrValue))) (n : PMData) : Bool :=
  n.typeName = "mention" &&
  !(filterRejects "type" optType n.attrs) &&
  !(filterRejects "modelId" optModelId n.attrs) &&
  !(mentions.any (fun m => attrGet m "id" = n.attr "id"))

mutual
def parseMentionsNode (optType optModelId : Option String)
    (acc : List (List (String × AttrValue))) : PMData →
    List (List (String × AttrValue))
  | .node t a m c tx =>
    if isApplicableMention optType optModelId acc (.node t a m c tx) then
      acc ++ [a]
    else parseMentionsList optType optModelId acc c

def parseMentionsList (optType optModelId : Option String)
    (acc : List (List (String × AttrValue))) : List PMData →
    List (List (String × AttrValue))
  | [] => acc
  | n :: rest =>
    parseMentionsList optType optModelId
      (parseMentionsNode optType optModelId acc n) rest
end

/-- `ProsemirrorHelper.parseMentions`. -/
def parseMentions (doc : PMData) (optType optModelId : Option String) :
    List (List (String × AttrValue)) :=
  parseMentionsList optType optModelId [] doc.content

/-! Declarative description used to state the claim about
`parseMentions`. -/

mutual
/-- The attrs of every mention node in a subtree, depth-first
pre-order. -/
def dfsMentionsNode : PMData → List (List (String × AttrValue))
  | .node t a _ c _ =>
    (if t = "mention" then [a] else []) ++ dfsMentionsList c

def dfsMentionsList : List PMData → List (List (String × AttrValue))
  | [] => []
  | n :: rest => dfsMentionsNode n ++ dfsMentionsList rest
end

/-- The attrs of every mention node under the document node,
depth-first pre-order (the document node itself is not visited). -/
def dfsMentions (doc : PMData) : List (List (String × AttrValue)) :=
  dfsMentionsList doc.content

/-- Does a mention attrs record pass the option filter? -/
def passesFilter (optType optModelId : Option String)
    (a : List (String × AttrValue)) : Bool :=
  !(filterRejects "type" optType a) && !(filterRejects "modelId" optModelId a)

mutual
/-- Every mention node in the subtree has no children (the `atom`
invariant of spec §3). -/
def mentionsAtomicNode : PMData → Bool
  | .node t _ _ c _ =>
    (t ≠ "mention" || c.isEmpty) && mentionsAtomicList c

def mentionsAtomicList : List PMData → Bool
  | [] => true
  | n :: rest => mentionsAtomicNode n && mentionsAtomicList rest
end

/-! ## replaceInternalUrls (ProsemirrorHelper.tsx lines 435–471) -/

/-- Modelled from the spec: `isInternalUrl` (imported from
`@shared/utils/urls`, not among the sources).  Spec §4.3 speaks of a
"mark `href` detected as internal"; a root-relative URL is the
internal form. -/
def isInternalUrl (url : String) : Bool :=
  url.data.headI = '/'

/-- JS `String.prototype.replace` with a string pattern: replace the
first occurrence only. -/
def jsReplaceFirst (l pat rep : List Char) : List Char :=
  match splitFirstSub l pat with
  | some (pre, post) => pre ++ rep ++ post
  | none => l

/-- Replace the value of an attribute (JS property assignment; the
functions modelled here only assign to attributes that exist, but an
absent key is appended for faithfulness to JS semantics). -/
def setAttr (attrs : List (String × AttrValue)) (name : String)
    (v : AttrValue) : List (String × AttrValue) :=
  match attrs with
  | [] => [(name, v)]
  | (k, w) :: rest =>
    if k = name then (k, v) :: rest else (k, w) :: setAttr rest name v

/-- Attribute read yielding a string only when the value is a JS
string. -/
def attrStr (attrs : List (String × AttrValue)) (name : String) :
    Option String :=
  match attrGet attrs name with
  | some (.str s) => some s
  | _ => none

/-- `replaceUrl` from the source:
`url.replace("/doc/", basePath + "/doc/")`. -/
def replaceUrl (basePath url : String) : String :=
  String.mk (jsReplaceFirst url.data "/doc/".data (basePath ++ "/doc/").data)

mutual
/-- `replaceInternalUrlsInner`: a node whose `attrs.href` is a string
has that attribute rewritten; otherwise every mark whose `href` is an
internal string is rewritten; children are processed recursively. -/
def replaceInternalUrlsInnerNode (basePath : String) : PMData → PMData
  | .node t a m c tx =>
    let hrefIsString := (attrStr a "href").isSome
    let a' :=
      match attrStr a "href" with
      | some h => setAttr a "href" (.str (replaceUrl basePath h))
      | none => a
    let m' :=
      if hrefIsString then m
      else m.map (fun mrk =>
        match attrStr mrk.attrs "href" with
        | some h =>
          if isInternalUrl h then
            let rewritten := setAttr mrk.attrs "href"
              (.str (replaceUrl basePath h))
            { mrk with attrs := rewritten }
          else mrk
        | none => mrk)
    .node t a' m' (replaceInternalUrlsInnerList basePath c) tx

def replaceInternalUrlsInnerList (basePath : String) :
    List PMData → List PMData
  | [] => []
  | n :: rest =>
    replaceInternalUrlsInnerNode basePath n ::
      replaceInternalUrlsInnerList basePath rest
end

/-- `ProsemirrorHelper.replaceInternalUrls` (the returned promise:
`Except.error` models a rejection).  The precondition check happens
before any rewriting. -/
def replaceInternalUrls (doc : PMData) (basePath : String) :
    Except String PMData :=
  if jsEndsWith basePath "/" then
    .error "internalUrlBase must not end with a slash"
  else .ok (replaceInternalUrlsInnerNode basePath doc)

/-! ## removeMarks (ProsemirrorHelper.tsx lines 420–433) -/

mutual
/-- `removeMarksInner`: filter out the listed mark types everywhere. -/
def removeMarksInnerNode (marks : List String) : PMData → PMData
  | .node t a m c tx =>
    .node t a (m.filter (fun mk => !(marks.contains mk.type)))
      (removeMarksInnerList marks c) tx

def removeMarksInnerList (marks : List String) : List PMData → List PMData
  | [] => []
  | n :: rest =>
    removeMarksInnerNode marks n :: removeMarksInnerList marks rest
end

/-! ## The aliasing model for the mutation claims

`removeMarks` and `replaceInternalUrls` accept `Node | ProsemirrorData`
and begin with `const json = "toJSON" in doc ? doc.toJSON() : doc`.
For a Prosemirror `Node`, `toJSON()` builds a fresh JSON structure, so
in-place rewriting of `json` cannot touch the caller's value.  For a
plain `ProsemirrorData` object, `json` is the very same object as the
argument and the inner functions mutate it in place.  The model makes
the aliasing explicit: each call returns its result together with the
state of the caller's argument after the call. -/

/-- The two runtime shapes a document argument can take. -/
inductive PMInput
  | nodeInput (d : PMData)
  | dataInput (d : PMData)
deriving Repr

def PMInput.tree : PMInput → PMData
  | .nodeInput d => d
  | .dataInput d => d

/-- `ProsemirrorHelper.removeMarks` with the caller's post-call view of
its argument. -/
def removeMarksCall (input : PMInput) (marks : List String) :
    PMData × PMInput :=
  let result := removeMarksInnerNode marks input.tree
  (result,
    match input with
    | .nodeInput d => .nodeInput d
    | .dataInput _ => .dataInput result)

/-- `ProsemirrorHelper.replaceInternalUrls` with the caller's post-call
view of its argument.  On the precondition rejection no rewriting has
happened yet, so the argument is unchanged in either shape. -/
def replaceInternalUrlsCall (input : PMInput) (basePath : String) :
    Except String PMData × PMInput :=
  if jsEndsWith basePath "/" then
    (.error "internalUrlBase must not end with a slash", input)
  else
    let result := replaceInternalUrlsInnerNode basePath input.tree
    (.ok result,
      match input with
      | .nodeInput d => .nodeInput d
      | .dataInput _ => .dataInput result)

/-! ## signAttachmentUrls (ProsemirrorHelper.tsx lines 481–547)

The two collaborators (spec §6) are passed in explicitly: the
attachment store (`Attachment.findAll` filtered by ids and owning
team) as a list of rows, and `FileStorage.getSignedUrl` as a function
that can fail.  `await Promise.all(...)` rejects as soon as any of the
mapped promises rejects, so the mapping construction is all-or-error.
-/

/-- A stored attachment row with the fields the source reads. -/
structure AttachmentRec where
  id : String
  teamId : String
  key : String
  redirectUrl : String
deriving DecidableEq, Repr

/-- `Attachment.findAll` filtered by `id ∈ ids` and `teamId`. -/
def findAttachments (db : List AttachmentRec) (ids : List String)
    (teamId : String) : List AttachmentRec :=
  db.filter (fun a => ids.contains a.id && a.teamId = teamId)

/-- `new URL(href)` followed by
`url.toString().substring(url.origin.length)`: the origin-relative
part of an absolute URL, `none` when `new URL` throws (no scheme).
An origin with no path serializes with a trailing slash, hence the
`"/"` case. -/
def jsUrlRelative (href : String) : Option String :=
  match splitFirstSub href.data "://".data with
  | none => none
  | some (_, afterScheme) =>
    let path := afterScheme.dropWhile (fun c => c ≠ '/')
    some (String.mk (if path = [] then ['/'] else path))

/-- `getMapping` from the source: the first mapping entry whose
original URL is a prefix of the href (or of its origin-relative form)
wins; otherwise the href passes through unchanged. -/
def getMapping (mapping : List (String × String)) (href : String) :
    String :=
  match mapping.find? (fun p =>
    jsStartsWith href p.1 ||
    (match jsUrlRelative href with
     | some r => jsStartsWith r p.1
     | none => false)) with
  | some p => p.2
  | none => href

mutual
/-- `replaceAttachmentUrls`: rewrite `src`, else `href`, else mark
hrefs, then recurse into children. -/
def replaceAttachmentUrlsNode (mapping : List (String × String)) :
    PMData → PMData
  | .node t a m c tx =>
    .node t
      (if jsTruthy (attrGet a "src") then
        setAttr a "src" (.str (getMapping mapping
          (((attrGet a "src").getD .null).jsString)))
      else if jsTruthy (attrGet a "href") then
        setAttr a "href" (.str (getMapping mapping
          (((attrGet a "href").getD .null).jsString)))
      else a)
      (if jsTruthy (attrGet a "src") || jsTruthy (attrGet a "href") then m
      else m.map (fun mrk =>
        if jsTruthy (attrGet mrk.attrs "href") then
          { mrk with attrs := setAttr mrk.attrs "href" (.str (getMapping
              mapping (((attrGet mrk.attrs "href").getD .null).jsString))) }
        else mrk))
      (replaceAttachmentUrlsList mapping c) tx

def replaceAttachmentUrlsList (mapping : List (String × String)) :
    List PMData → List PMData
  | [] => []
  | n :: rest =>
    replaceAttachmentUrlsNode mapping n ::
      replaceAttachmentUrlsList mapping rest
end

/-- The `Promise.all` that builds the redirectUrl → signedUrl mapping:
one rejection rejects the whole batch. -/
def buildMapping (atts : List AttachmentRec)
    (getSignedUrl : String → Except Unit String) :
    Except Unit (List (String × String)) :=
  match atts with
  | [] => .ok []
  | a :: rest =>
    match getSignedUrl a.key with
    | .error e => .error e
    | .ok u =>
      match buildMapping rest getSignedUrl with
      | .error e => .error e
      | .ok tail => .ok ((a.redirectUrl, u) :: tail)

/-- `ProsemirrorHelper.signAttachmentUrls`.  `expiresIn` is forwarded
to the storage collaborator unchanged and is folded into
`getSignedUrl` here. -/
def signAttachmentUrls (doc : PMData) (teamId : String)
    (db : List AttachmentRec)
    (getSignedUrl : String → Except Unit String) :
    Except Unit PMData :=
  match buildMapping (findAttachments db (parseAttachmentIds doc) teamId)
      getSignedUrl with
  | .error e => .error e
  | .ok mapping => .ok (replaceAttachmentUrlsNode mapping doc)

/-! ## toPdfHtml (ProsemirrorHelper.tsx lines 792–1194)

For the readiness-signal claim the relevant observable is the list of
elements appended to the rendered document's body — the per-child
output of the custom `serializeNode`, followed by the scripts appended
by the mermaid/readiness logic — together with the script elements
that the code-block branch can inject: lines 960–962 keep the raw code
text for `mermaidjs` blocks and line 977 falls back to the raw code
when highlighting throws, and that raw text is assigned to
`codeEl.innerHTML` (line 985), where markup in it is parsed into real
elements.  Styles, the shell markup and URL absolutization do not
create script elements and are not modelled. -/

/-- The scripts the tail of `toPdfHtml` can append.  `mermaidRun` is
the module script that imports mermaid and, in its `finally` clause,
sets `window.status` to ready; `readySignal` is the bare assignment
script.  Both set the readiness flag. -/
inductive PdfScript
  | mermaidRun
  | readySignal
deriving DecidableEq, Repr

def PdfScript.setsReadyFlag : PdfScript → Bool
  | .mermaidRun => true
  | .readySignal => true

/-- One element of the generated body, at the granularity the
readiness claim needs.  A code block carries the markup assigned to
`codeEl.innerHTML`, since script elements inside it become real
scripts of the returned HTML. -/
inductive BodyElem
  | mathElem (block : Bool)
  | codeBlockElem (language : String) (markup : List Char)
  | embedPlaceholder (href : String)
  | textElem (s : String)
  | serialized (typeName : String)
  | script (code : PdfScript)
deriving DecidableEq, Repr

/-- The `language` the source uses for a code block:
`node.attrs.language || "plaintext"`. -/
def codeLanguage (n : PMData) : String :=
  let v := attrGet n.attrs "language"
  if jsTruthy v then (v.getD .null).jsString else "plaintext"

mutual
/-- `node.textContent`: the concatenated text of the node and its
descendants (`const code = nodeToSerialize.textContent || ""`,
line 957). -/
def textContentNode : PMData → List Char
  | .node _ _ _ c tx => (tx.getD "").data ++ textContentList c

def textContentList : List PMData → List Char
  | [] => []
  | n :: rest => textContentNode n ++ textContentList rest
end

/-- Modelled from the spec: the external syntax highlighter ("rendered
through a highlighter keyed by the node's declared language") returns
highlight markup over the HTML-escaped code text; for the readiness
count the only property that matters is that no `<` of the code
survives into the markup, so the model keeps the escaped text. -/
def escapeHtmlChar (c : Char) : List Char :=
  if c = '&' then "&amp;".data
  else if c = '<' then "&lt;".data
  else if c = '>' then "&gt;".data
  else [c]

def escapeHtml (l : List Char) : List Char :=
  (l.map escapeHtmlChar).flatten

/-- Occurrences of `pat` starting at each position of `l`. -/
def countOccSub (l pat : List Char) : Nat :=
  match l with
  | [] => 0
  | _ :: rest => (if pat.isPrefixOf l then 1 else 0) + countOccSub rest pat

/-- The canonical readiness script element, as the source writes it
(line 1183/1189). -/
def readyScriptMarker : List Char :=
  "<script>window.status = \"ready\";</script>".data

/-- Modelled from the spec: assigning markup through `innerHTML`
parses it, creating a script element that sets the readiness flag for
each occurrence of the ready-script element in the markup; the model
counts occurrences of the canonical form `readyScriptMarker`. -/
def readyScriptsInMarkup (m : List Char) : Nat :=
  countOccSub m readyScriptMarker

/-- The markup assigned to `codeEl.innerHTML` for one code block
(lines 958–985): the raw code text for `mermaidjs` (line 962), the raw
code text when the highlighter throws (the catch at line 977), and
the highlighter's escaped markup otherwise. -/
def renderedCodeMarkup (hljsFails : String → String → Bool)
    (language code : String) : List Char :=
  if language = "mermaidjs" then code.data
  else if hljsFails language code then code.data
  else escapeHtml code.data

/-- `serializeNode` called on one top-level child: math and code
blocks and embeds get custom rendering, text nodes become text, and
everything else goes through the schema `DOMSerializer`.  Only the
code-block branch can contribute script elements, through its raw
`innerHTML` markup; `hljsFails` tells for which inputs the highlighter
throws. -/
def serializeNodeElem (hljsFails : String → String → Bool)
    (n : PMData) : BodyElem :=
  if n.typeName = "math_inline" ∨ n.typeName = "math_block" then
    .mathElem (n.typeName = "math_block")
  else if n.typeName = "code_block" then
    .codeBlockElem (codeLanguage n)
      (renderedCodeMarkup hljsFails (codeLanguage n)
        (String.mk (textContentNode n)))
  else if n.typeName = "embed" then
    .embedPlaceholder
      (if jsTruthy (attrGet n.attrs "href") then
        ((attrGet n.attrs "href").getD .null).jsString
      else "#")
  else if n.typeName = "text" then
    .textElem ((n.text).getD "")
  else .serialized n.typeName

/-- The options record of `toPdfHtml` (`PdfHtmlOptions = HTMLOptions`). -/
structure PdfHtmlOptions where
  title : Option String := none
  includeStyles : Option Bool := none
  includeMermaid : Option Bool := none
  centered : Option Bool := none
  baseUrl : Option String := none
deriving Repr

/-- The number of elements matched by
`querySelectorAll('[data-language="mermaidjs"] code')`: one per
code block rendered with language `mermaidjs`. -/
def mermaidCount (doc : PMData) : Nat :=
  (doc.content.filter (fun n =>
    n.typeName = "code_block" && codeLanguage n = "mermaidjs")).length

/-- The body of the HTML document returned by
`ProsemirrorHelper.toPdfHtml`: the serialized top-level children
followed by the scripts appended by the mermaid/readiness logic
(lines 1142–1191 of the source): with `includeMermaid` and at least
one mermaid block, one mermaid module script; with `includeMermaid`
and none, one bare readiness script; without `includeMermaid`, one
bare readiness script. -/
def toPdfHtmlBody (doc : PMData) (opts : PdfHtmlOptions)
    (hljsFails : String → String → Bool) : List BodyElem :=
  let contentElems := doc.content.map (serializeNodeElem hljsFails)
  let tail :=
    if opts.includeMermaid.getD false then
      if 0 < mermaidCount doc then [BodyElem.script .mermaidRun]
      else [BodyElem.script .readySignal]
    else [BodyElem.script .readySignal]
  contentElems ++ tail

/-- The ready-setting scripts one body element contributes: one for an
appended tail script, and one per ready-script occurrence in a code
block's `innerHTML` markup. -/
def readyScriptCount : BodyElem → Nat
  | .script c => if c.setsReadyFlag then 1 else 0
  | .codeBlockElem _ markup => readyScriptsInMarkup markup
  | _ => 0

/-- The number of scripts in a body that set the readiness flag. -/
def countReadyScripts (l : List BodyElem) : Nat :=
  (l.map readyScriptCount).sum

/-- A document whose single `mermaidjs` code block's text is the
literal ready-script markup. -/
def scriptInjectionDoc : PMData :=
  .node "doc" [] [] [
    .node "code_block" [("language", .str "mermaidjs")] [] [
      .node "text" [] [] []
        (some "<script>window.status = \"ready\";</script>")] none] none

/-! ## toProsemirror (ProsemirrorHelper.tsx lines 217–253)

`Node.fromJSON(schema, data)` performs strict construction against the
schema registry: unknown node or mark types and missing required
attributes throw; unknown attributes are dropped and missing optional
attributes are filled with their declared defaults (spec §3).  The
attachment, pdfEmbed and mention schemas come from the sources; the
remaining basic node types are modelled from the spec's closed node
set. -/

/-- Persisted JSON values. -/
inductive Json
  | jnull
  | jbool (b : Bool)
  | jnum (n : Int)
  | jstr (s : String)
  | jarr (xs : List Json)
  | jobj (fields : List (String × Json))
deriving Repr

/-- Field lookup on a JSON object; `none` elsewhere (JS property read
on a non-object or a missing key gives `undefined`). -/
def jsonField : Json → String → Option Json
  | .jobj fields, name => (fields.find? (fun p => p.1 = name)).map (·.2)
  | _, _ => none

/-- JS truthiness of a JSON value. -/
def jsonTruthy : Json → Bool
  | .jnull => false
  | .jbool b => b
  | .jnum n => n ≠ 0
  | .jstr s => s ≠ ""
  | .jarr _ => true
  | .jobj _ => true

/-- `typeof data === "object"` (arrays and `null` are objects in JS). -/
def jsonIsObject : Json → Bool
  | .jobj _ => true
  | .jarr _ => true
  | .jnull => true
  | _ => false

/-- The declared default of a schema attribute: required (no default),
a concrete default value, or a default of `undefined` (the attribute
is then simply absent). -/
inductive AttrDefault
  | required
  | dflt (v : AttrValue)
  | undefDflt
deriving Repr

/-- One node type of the schema registry. -/
structure NodeSpecM where
  name : String
  attrSpecs : List (String × AttrDefault) := []
  isText : Bool := false

/-- One mark type of the schema registry. -/
structure MarkSpecM where
  name : String
  attrSpecs : List (String × AttrDefault) := []

/-- The node registry.  `attachment`, `pdfEmbed` and `mention` carry
the attribute declarations of their source schemas; the remaining
entries are modelled from the spec's closed node set (§3), with the
document, paragraph, table and list containers attribute-free and
media carrying a `src`. -/
def nodeRegistry : List NodeSpecM :=
  [ { name := "doc" },
    { name := "paragraph" },
    { name := "heading", attrSpecs := [("level", .dflt (.num 1))] },
    { name := "text", isText := true },
    { name := "code_block",
      attrSpecs := [("language", .dflt .null)] },
    { name := "math_inline" },
    { name := "math_block" },
    { name := "table" }, { name := "tr" }, { name := "td" },
    { name := "bullet_list" }, { name := "ordered_list" },
    { name := "list_item" },
    { name := "image", attrSpecs := [("src", .dflt .null)] },
    { name := "video", attrSpecs := [("src", .dflt .null)] },
    { name := "embed", attrSpecs := [("href", .dflt .null)] },
    { name := "attachment",
      attrSpecs :=
        [("id", .dflt .null), ("href", .dflt .null),
         ("title", .required), ("size", .dflt (.num 0)),
         ("height", .dflt (.num 500))] },
    { name := "pdfEmbed",
      attrSpecs := [("attachmentId", .dflt (.str ""))] },
    { name := "mention",
      attrSpecs :=
        [("type", .required), ("label", .required),
         ("modelId", .required), ("actorId", .undefDflt),
         ("id", .undefDflt)] } ]

/-- The mark registry (spec §3's inline annotations; `link` carries an
`href`). -/
def markRegistry : List MarkSpecM :=
  [ { name := "link",
      attrSpecs := [("href", .dflt .null), ("title", .dflt .null)] },
    { name := "strong" }, { name := "em" }, { name := "code_inline" },
    { name := "strikethrough" }, { name := "highlight" } ]

/-- Convert a JSON attribute value to a primitive attribute value;
non-primitive values are a construction error (spec §3: attrs are
primitive). -/
def jsonToAttr : Json → Except String AttrValue
  | .jnull => .ok .null
  | .jbool b => .ok (.bool b)
  | .jnum n => .ok (.num n)
  | .jstr s => .ok (.str s)
  | .jarr _ => .error "non-primitive attribute value"
  | .jobj _ => .error "non-primitive attribute value"

/-- `computeAttrs`: walk the declared attributes, take the given value
when present, otherwise the declared default; a missing required
attribute throws; undeclared given attributes are dropped. -/
def computeAttrs (specs : List (String × AttrDefault)) (given : Json) :
    Except String (List (String × AttrValue)) :=
  match specs with
  | [] => .ok []
  | (n, d) :: rest => do
    let tail ← computeAttrs rest given
    match jsonField given n with
    | some v => do
      let a ← jsonToAttr v
      pure ((n, a) :: tail)
    | none =>
      match d with
      | .required => .error ("missing required attribute " ++ n)
      | .dflt v => pure ((n, v) :: tail)
      | .undefDflt => pure tail

/-- Mark construction against the mark registry. -/
def markFromJSON (j : Json) : Except String MarkData :=
  match jsonField j "type" with
  | some (.jstr t) =>
    match markRegistry.find? (fun s => s.name = t) with
    | some spec => do
      let attrs ← computeAttrs spec.attrSpecs (jsonField j "attrs" |>.getD .jnull)
      pure { type := t, attrs := attrs }
    | none => .error ("unknown mark type " ++ t)
  | _ => .error "mark missing type"

def marksFromJSON (j : Json) : Except String (List MarkData) :=
  match jsonField j "marks" with
  | none => .ok []
  | some (.jarr ms) => ms.mapM markFromJSON
  | some _ => .error "marks is not an array"

mutual
/-- Structural size of a JSON value, used as parsing fuel. -/
def jsonSize : Json → Nat
  | .jarr xs => 1 + jsonSizeList xs
  | .jobj fields => 1 + jsonSizeFields fields
  | _ => 1

def jsonSizeList : List Json → Nat
  | [] => 0
  | x :: rest => jsonSize x + jsonSizeList rest

def jsonSizeFields : List (String × Json) → Nat
  | [] => 0
  | (_, x) :: rest => jsonSize x + jsonSizeFields rest
end

mutual
/-- `Node.fromJSON(schema, _)` with explicit fuel (any fuel at least
the structural size behaves identically; `fromJSON` below supplies
it). -/
def fromJSONFuel : Nat → Json → Except String PMData
  | 0, _ => .error "fuel exhausted"
  | fuel + 1, j =>
    match jsonField j "type" with
    | some (.jstr t) =>
      match nodeRegistry.find? (fun s => s.name = t) with
      | none => .error ("unknown node type " ++ t)
      | some spec =>
        if spec.isText then
          match jsonField j "text" with
          | some (.jstr s) => do
            let marks ← marksFromJSON j
            pure (.node t [] marks [] (some s))
          | _ => .error "invalid text node in JSON"
        else do
          let attrs ← computeAttrs spec.attrSpecs
            (jsonField j "attrs" |>.getD .jnull)
          let marks ← marksFromJSON j
          let content ←
            match jsonField j "content" with
            | none => .ok []
            | some (.jarr xs) => fromJSONFuelList fuel xs
            | some _ => .error "content is not an array"
          pure (.node t attrs marks content none)
    | _ => .error "node missing type"

def fromJSONFuelList : Nat → List Json → Except String (List PMData)
  | 0, _ => .error "fuel exhausted"
  | _ + 1, [] => .ok []
  | fuel + 1, x :: rest => do
    let n ← fromJSONFuel fuel x
    let tail ← fromJSONFuelList fuel rest
    pure (n :: tail)
end

/-- `Node.fromJSON(schema, j)` — the fuel never runs out at this
size. -/
def fromJSON (j : Json) : Except String PMData :=
  fromJSONFuel (jsonSize j + 1) j

/-- The empty document the error paths substitute:
`Node.fromJSON(schema, { type: "doc", content: [] })`. -/
def emptyDocNode : PMData := .node "doc" [] [] [] none

/-- The possible runtime arguments of `toProsemirror`:
`ProsemirrorData | string | null | undefined`. -/
inductive PMInputV
  | strInput (s : String)
  | jsonInput (j : Json)
  | nullInput
  | undefInput
deriving Repr

/-- `ProsemirrorHelper.toProsemirror`, parameterized by the markdown
reader `parser.parse` (whose own code is not among the sources): the
reader may throw (`Except.error`) or return a nullish result
(`Option.none`), and both are caught and replaced by the empty
document, exactly as in the source's string branch.  The JSON branch
checks truthiness, object-ness and a truthy `type` field, then
attempts strict construction, substituting the empty document on any
error. -/
def toProsemirror (parseFn : String → Except String (Option PMData)) :
    PMInputV → PMData
  | .strInput s =>
    match parseFn s with
    | .ok (some n) => n
    | .ok none => emptyDocNode
    | .error _ => emptyDocNode
  | .nullInput => emptyDocNode
  | .undefInput => emptyDocNode
  | .jsonInput j =>
    if !(jsonTruthy j) || !(jsonIsObject j) ||
        !(jsonTruthy ((jsonField j "type").getD .jnull)) then
      emptyDocNode
    else
      match fromJSON j with
      | .ok n => n
      | .error _ => emptyDocNode

/-! ## The mention id-uniqueness repair pass (Mention.plugins)

The appended transaction walks `tr.doc.descendants` in depth-first
order carrying a set of already-seen ids; every mention whose id is
falsy or already seen gets a fresh `uuidv4()`; the (possibly new) id
of every visited node — mention or not — is added to the set.
`setNodeAttribute` changes one node's attribute in place and does not
move positions, so the pass is faithfully modelled on the flat
depth-first list of nodes.  The uuid generator is modelled as a
supply of fresh strings. -/

/-- A node as the repair pass sees it: its type name and its `id`
attribute. -/
structure PassNode where
  typeName : String
  id : Option AttrValue
deriving DecidableEq, Repr

/-- The loop of the appended transaction. -/
def repairMentionsGo (supply : Nat → String) :
    Nat → List (Option AttrValue) → List PassNode → List PassNode
  | _, _, [] => []
  | k, seen, n :: rest =>
    if n.typeName = "mention" && (!(jsTruthy n.id) || seen.contains n.id)
    then
      { n with id := some (.str (supply k)) } ::
        repairMentionsGo supply (k + 1)
          (some (.str (supply k)) :: seen) rest
    else
      n :: repairMentionsGo supply k (n.id :: seen) rest

/-- The mention repair pass over the document's depth-first node
list. -/
def repairMentions (supply : Nat → String) (l : List PassNode) :
    List PassNode :=
  repairMentionsGo supply 0 [] l

/-- The ids of the mention nodes of a pass list, in order. -/
def mentionIds (l : List PassNode) : List (Option AttrValue) :=
  (l.filter (fun n => n.typeName = "mention")).map (·.id)

/-- The ids of all nodes of a pass list, in order. -/
def allIds (l : List PassNode) : List (Option AttrValue) :=
  l.map (·.id)

/-! ## Attachment.parseMarkdown (Attachment.tsx lines 223–274)

`getAttrs` inspects the link token's text with two regexes,
`/^(.*?) +pdf:(\d+)$/i` and `/^(.*?) +(\d+)$/`, then falls back to
deriving a title from the URL.  The matchers below implement the JS
regex semantics on these two patterns: the lazy group takes the
shortest prefix whose remainder matches the anchored tail, and `.`
does not match a newline. -/

/-- Tail matcher for a nonempty all-digits run reaching the end of the
string (`(\d+)$`). -/
def digitsRun (l : List Char) : Option Nat :=
  if !l.isEmpty && l.all Char.isDigit then some (digitsToNat l)
  else none

/-- After at least one space was consumed: keep consuming spaces, then
hand over to the tail matcher. -/
def spacesThenCont (f : List Char → Option α) : List Char → Option α
  | [] => f []
  | c :: rest => if c = ' ' then spacesThenCont f rest else f (c :: rest)

/-- ` +` followed by `f` followed by end of string. -/
def spacesThen (f : List Char → Option α) : List Char → Option α
  | [] => none
  | c :: rest => if c = ' ' then spacesThenCont f rest else none

/-- Tail matcher for `pdf:(\d+)$` with the `i` flag on the letters. -/
def pdfTail : List Char → Option Nat
  | p :: d :: f :: colon :: rest =>
    if (p = 'p' ∨ p = 'P') ∧ (d = 'd' ∨ d = 'D') ∧
        (f = 'f' ∨ f = 'F') ∧ colon = ':' then
      digitsRun rest
    else none
  | _ => none

/-- `linkText.match(/^(.*?) +(\d+)$/)`: the shortest prefix (without
newlines) whose remainder is spaces then digits to the end; yields the
group captures. -/
def jsGenericMatch : List Char → Option (List Char × Nat)
  | [] => none
  | c :: rest =>
    match spacesThen digitsRun (c :: rest) with
    | some n => some ([], n)
    | none =>
      if c = '\n' then none
      else
        match jsGenericMatch rest with
        | some (p, n) => some (c :: p, n)
        | none => none

/-- `linkText.match(/^(.*?) +pdf:(\d+)$/i)` under the same
semantics. -/
def jsPdfMatch : List Char → Option (List Char × Nat)
  | [] => none
  | c :: rest =>
    match spacesThen pdfTail (c :: rest) with
    | some n => some ([], n)
    | none =>
      if c = '\n' then none
      else
        match jsPdfMatch rest with
        | some (p, n) => some (c :: p, n)
        | none => none

/-- A markdown-it link token as `getAttrs` reads it: its `href`
attribute and `children[0].content` (empty when there are no
children). -/
structure LinkToken where
  href : Option String
  childContent : String
deriving DecidableEq, Repr

/-- The attributes of a parsed attachment node. -/
structure AttachmentAttrs where
  href : Option String
  title : String
  size : Nat
deriving DecidableEq, Repr

/-- JS truthiness of the `href` attribute: present and non-empty. -/
def hrefIsTruthy : Option String → Bool
  | some h => !h.data.isEmpty
  | none => false

/-- `lastPart.split('?')[0].split('#')[0]`: strip query and hash from a
path segment. -/
def attachmentStripQuery (lastPart : List Char) : List Char :=
  (splitBy (fun c => c = '#')
    ((splitBy (fun c => c = '?') lastPart).headI)).headI

/-- `try { title = decodeURIComponent(title) } catch \x7b\x7d`: decode,
keeping the raw segment when decoding throws. -/
def attachmentDecodeTitle (t : List Char) : List Char :=
  match percentDecode t with
  | some dec => dec
  | none => t

/-- The href-derived fallback title: the URL's last path segment
(`href.split('/').pop()`), stripped of query and hash then URL-decoded;
`"Attachment"` when the segment is empty. -/
def attachmentFallbackTitle (h : List Char) : List Char :=
  if ((splitBy (fun c => c = '/') h).getLast?).getD [] ≠ [] then
    attachmentDecodeTitle
      (attachmentStripQuery (((splitBy (fun c => c = '/') h).getLast?).getD []))
  else "Attachment".data

/-- The final-title logic of `getAttrs`: `if (!title && href) \x7b derive
from href \x7d else if (!title) \x7b "Attachment" \x7d else keep`. -/
def attachmentTitleOf (href : Option String) (title : List Char) : List Char :=
  if title.isEmpty && hrefIsTruthy href then
    attachmentFallbackTitle (href.getD "").data
  else if title.isEmpty then "Attachment".data
  else title

/-- `Attachment.parseMarkdown().getAttrs`: try the
`"<title> pdf:<size>"` convention, then `"<title> <size>"` (the matched
title is `.trim()`-med); otherwise the title is the raw link text and
the size `0`; then the empty-title fallback of `attachmentTitleOf`. -/
def attachmentGetAttrs (tok : LinkToken) : AttachmentAttrs :=
  match jsPdfMatch tok.childContent.data with
  | some (g1, n) =>
    ⟨tok.href, String.mk (attachmentTitleOf tok.href (trimChars g1)), n⟩
  | none =>
    match jsGenericMatch tok.childContent.data with
    | some (g1, n) =>
      ⟨tok.href, String.mk (attachmentTitleOf tok.href (trimChars g1)), n⟩
    | none =>
      ⟨tok.href, String.mk (attachmentTitleOf tok.href tok.childContent.data), 0⟩

/-! ## The Markdown codec

The per-node custom encodings come from the sources:
`Attachment.toMarkdown` writes `[<title> <size>](<href>)` on its own
line; `Mention.toMarkdown` writes
`@[<label>](mention://<id>/<type>/<modelId>)` inline;
`Attachment.parseMarkdown` supplies `attachmentGetAttrs` above.

The surrounding machinery — the serializer framework with its
`ensureNewLine` blank-line separation, the markdown-it block/inline
tokenizer, and the serialization of the plain block types — is not
among the sources.  Modelled from the spec: §4.2 ("container types
recursively serialize children and manage blank-line separation …
exactly one blank line before/after block-level constructs"),
tokenization "via a block/inline Markdown tokenizer extended with
custom rules per node type (attachment-link pattern, mention-link
pattern)", the mention URL convention of §6, and CommonMark for
headings, fenced code blocks and pipe tables.  The attachment-link
rule recognizes a block consisting of a single link whose destination
matches the attachment-redirect convention (§3: internally stored
attachment hrefs follow that pattern). -/

/-- Inline content: plain text or a mention. -/
inductive MInline
  | textI (s : String)
  | mentionI (id typ modelId label : String)
deriving DecidableEq, Repr

/-- Block content: the node kinds the round-trip claim names. -/
inductive MBlock
  | paragraphB (content : List MInline)
  | headingB (level : Nat) (content : List MInline)
  | codeB (language : String) (code : String)
  | tableB (rows : List (List String))
  | attachmentB (href : String) (title : String) (size : Nat)
deriving DecidableEq, Repr

/-- Decimal digit character. -/
def digitChar (n : Nat) : Char := Char.ofNat ('0'.toNat + n)

/-- Fuelled digit expansion (the fuel never runs out at `n + 1`). -/
def natDigitsGo : Nat → Nat → List Char → List Char
  | 0, _, acc => acc
  | fuel + 1, n, acc =>
    if n < 10 then digitChar n :: acc
    else natDigitsGo fuel (n / 10) (digitChar (n % 10) :: acc)

/-- The decimal digits of a number, as JS `${n}` prints a
non-negative integer. -/
def natDigits (n : Nat) : List Char := natDigitsGo (n + 1) n []

/-- Serialization of one inline (mention per `Mention.toMarkdown`). -/
def serializeInline : MInline → List Char
  | .textI s => s.data
  | .mentionI id typ modelId label =>
    '@' :: '[' :: (label.data ++ ']' :: '(' :: ("mention://".data ++
      (id.data ++ '/' :: (typ.data ++ '/' :: (modelId.data ++ [')'])))))

def serializeInlines (l : List MInline) : List Char :=
  (l.map serializeInline).flatten

/-- One table row as a pipe-table line. -/
def serializeRow (cells : List String) : List Char :=
  "| ".data ++ joinSep " | ".data (cells.map String.data) ++
    " |".data

/-- The lines of one serialized block (attachment per
`Attachment.toMarkdown`). -/
def serializeBlockLines : MBlock → List (List Char)
  | .paragraphB content => [serializeInlines content]
  | .headingB level content =>
    [List.replicate level '#' ++ ' ' :: serializeInlines content]
  | .codeB lang code =>
    ("```".data ++ lang.data) ::
      (splitBy (fun c => c = '\n') code.data ++ ["```".data])
  | .tableB rows => rows.map serializeRow
  | .attachmentB href title size =>
    ['[' :: (title.data ++ ' ' :: natDigits size) ++ "](".data ++
      href.data ++ [')']]

/-- The lines of a serialized document: blocks separated by exactly
one blank line (`ensureNewLine` semantics). -/
def toMarkdownLines (doc : List MBlock) : List (List Char) :=
  joinSep [[]] (doc.map serializeBlockLines)

/-- `toMarkdown`: the full document text. -/
def toMarkdown (doc : List MBlock) : String :=
  String.mk (joinSep ['\n'] (toMarkdownLines doc))

/-- Parse a mention token body: the input starts right after `@[`, and
a successful parse consumes `label](mention://id/typ/modelId)`,
returning the mention and the remaining input.  `parseSeg stop l` reads
the segment up to the first `stop` character and the input after it. -/
def parseSeg (stop : Char) (l : List Char) : Option (List Char × List Char) :=
  if (l.dropWhile (fun c => c ≠ stop)).isEmpty then none
  else some (l.takeWhile (fun c => c ≠ stop),
    (l.dropWhile (fun c => c ≠ stop)).drop 1)

/-- Parse the mention token body following `@[`. -/
def parseMentionAt (l : List Char) : Option (MInline × List Char) :=
  match splitFirstSub l "](".data with
  | none => none
  | some (label, rest1) =>
    if "mention://".data.isPrefixOf rest1 then
      match parseSeg '/' (rest1.drop "mention://".data.length) with
      | none => none
      | some (id, rest3) =>
        match parseSeg '/' rest3 with
        | none => none
        | some (typ, rest4) =>
          match parseSeg ')' rest4 with
          | none => none
          | some (modelId, rest5) =>
            some (.mentionI (String.mk id) (String.mk typ)
              (String.mk modelId) (String.mk label), rest5)
    else none

/-- Find the earliest parseable `@[...](mention://...)` occurrence,
returning the text before it, the mention, and the rest. -/
def findMentionSplit : List Char → Option (List Char × MInline × List Char)
  | [] => none
  | c :: rest =>
    if c = '@' ∧ rest.headI = '[' ∧ (parseMentionAt (rest.drop 1)).isSome
    then
      match parseMentionAt (rest.drop 1) with
      | some (m, after) => some ([], m, after)
      | none => none
    else
      match findMentionSplit rest with
      | some (pre, m, after) => some (c :: pre, m, after)
      | none => none

/-- Fuelled inline scanner: alternate plain text and mentions. -/
def parseInlinesGo : Nat → List Char → List MInline
  | 0, l => if l.isEmpty then [] else [.textI (String.mk l)]
  | fuel + 1, l =>
    match findMentionSplit l with
    | some (pre, m, after) =>
      (if pre.isEmpty then [] else [.textI (String.mk pre)]) ++
        m :: parseInlinesGo fuel after
    | none => if l.isEmpty then [] else [.textI (String.mk l)]

def parseInlines (l : List Char) : List MInline :=
  parseInlinesGo l.length l

/-- Recognize a full-line link `[text](href)`: the link text runs to
the first `](` and the destination to the final `)`, which must close
the line. -/
def parseLinkLine (l : List Char) : Option LinkToken :=
  match l with
  | [] => none
  | c :: rest =>
    if c = '[' then
      match splitFirstSub rest "](".data with
      | none => none
      | some (linkText, rest2) =>
        if rest2.getLast? = some ')' ∧ ¬ rest2.dropLast.contains ')' then
          some { href := some (String.mk rest2.dropLast),
                 childContent := String.mk linkText }
        else none
    else none

/-- Strip the single space padding of a pipe-table cell segment. -/
def stripCell (seg : List Char) : List Char :=
  let s1 := if seg.headI = ' ' && !seg.isEmpty then seg.drop 1 else seg
  if s1.getLast? = some ' ' then s1.dropLast else s1

/-- Cells of one pipe-table row line. -/
def parseRowCells (line : List Char) : List String :=
  let segs := splitBy (fun c => c = '|') line
  ((segs.drop 1).dropLast).map (fun seg => String.mk (stripCell seg))

/-- Parse one blank-line-separated group of lines into a block. -/
def parseBlockGroup (group : List (List Char)) : MBlock :=
  match group with
  | [] => .paragraphB []
  | line1 :: rest =>
    if "```".data.isPrefixOf line1 then
      .codeB (String.mk (line1.drop 3))
        (String.mk (joinSep ['\n']
          (if rest.getLast? = some "```".data then rest.dropLast else rest)))
    else if line1.headI = '|' && !line1.isEmpty then
      .tableB (group.map parseRowCells)
    else if line1.headI = '#' && !line1.isEmpty then
      if (line1.takeWhile (fun c => c = '#')).length ≤ 6 ∧
          (line1.dropWhile (fun c => c = '#')).headI = ' ' ∧
          ¬ (line1.dropWhile (fun c => c = '#')).isEmpty then
        .headingB (line1.takeWhile (fun c => c = '#')).length
          (parseInlines ((line1.dropWhile (fun c => c = '#')).drop 1))
      else .paragraphB (parseInlines (joinSep ['\n'] group))
    else
      match parseLinkLine line1 with
      | some tok =>
        if rest.isEmpty ∧
            containsSub (tok.href.getD "").data redirectMarker then
          .attachmentB ((attachmentGetAttrs tok).href.getD "")
            (attachmentGetAttrs tok).title (attachmentGetAttrs tok).size
        else .paragraphB (parseInlines (joinSep ['\n'] group))
      | none => .paragraphB (parseInlines (joinSep ['\n'] group))

/-- `fromMarkdown`: split into lines, group at blank lines, parse each
group. -/
def fromMarkdown (s : String) : List MBlock :=
  (splitBy (fun line => line.isEmpty)
    (splitBy (fun c => c = '\n') s.data)).map parseBlockGroup

/-- The titles of the attachment blocks of a document, used to state
the round-trip counterexample. -/
def attachmentTitles (doc : List MBlock) : List String :=
  doc.filterMap (fun b =>
    match b with
    | .attachmentB _ t _ => some t
    | _ => none)

/-! ### Well-formedness for the amended round-trip law -/

/-- A plain-text inline safe for the round trip: nonempty, no newline,
and no `@[` that the mention rule would capture. -/
def wfText (s : String) : Bool :=
  !s.data.isEmpty && !s.data.contains '\n' && !containsSub s.data "@[".data

/-- A mention safe for the round trip: no `/` in id or type, no `)` in
the model id, no `]` in the label, and no newlines anywhere. -/
def wfMention (id typ modelId label : String) : Bool :=
  !id.data.contains '/' && !id.data.contains '\n' &&
  !typ.data.contains '/' && !typ.data.contains '\n' &&
  !modelId.data.contains ')' && !modelId.data.contains '\n' &&
  !label.data.contains ']' && !label.data.contains '\n'

def wfInline : MInline → Bool
  | .textI s => wfText s
  | .mentionI id typ modelId label => wfMention id typ modelId label

/-- Inline sequence: each inline well-formed and no two adjacent plain
texts (a normalized tree never has them; two adjacent texts would
re-parse as one). -/
def wfInlines : List MInline → Bool
  | [] => true
  | [i] => wfInline i
  | i :: j :: rest =>
    wfInline i &&
    !(match i, j with
      | .textI _, .textI _ => true
      | _, _ => false) &&
    wfInlines (j :: rest)

/-- The serialized first line of a paragraph must not look like
another block kind. -/
def wfParagraphStart : List MInline → Bool
  | .textI s :: _ =>
    s.data.headI ≠ '#' && s.data.headI ≠ '|' && s.data.headI ≠ '[' &&
    !"```".data.isPrefixOf s.data
  | _ => true

def wfBlock : MBlock → Bool
  | .paragraphB content =>
    !content.isEmpty && wfInlines content && wfParagraphStart content
  | .headingB level content =>
    1 ≤ level && level ≤ 6 && wfInlines content
  | .codeB lang code =>
    !lang.data.contains '\n' &&
    !code.data.isEmpty &&
    (splitBy (fun c => c = '\n') code.data).all
      (fun line => !line.isEmpty && line ≠ "```".data)
  | .tableB rows =>
    !rows.isEmpty &&
    rows.all (fun row =>
      !row.isEmpty &&
      row.all (fun cell =>
        !cell.data.contains '|' && !cell.data.contains '\n'))
  | .attachmentB href title _size =>
    trimChars title.data = title.data && !title.data.isEmpty &&
    !title.data.contains '\n' && !title.data.contains ']' &&
    containsSub href.data redirectMarker &&
    !href.data.contains ')' && !href.data.contains '\n'

/-- A document whose round trip the amended law covers. -/
def wfDoc (doc : List MBlock) : Bool :=
  !doc.isEmpty && doc.all wfBlock

/-! ## Observation functions used in the claim statements -/

mutual
/-- Every node-attribute `href` string value in a subtree, depth-first
pre-order (node included). -/
def nodeHrefsNode : PMData → List String
  | .node _ a _ c _ =>
    (match attrStr a "href" with
     | some h => [h]
     | none => []) ++ nodeHrefsList c

def nodeHrefsList : List PMData → List String
  | [] => []
  | n :: rest => nodeHrefsNode n ++ nodeHrefsList rest
end

mutual
/-- Every mark `href` string value carried by nodes whose own
`attrs.href` is not a string, depth-first pre-order (the hrefs
`replaceInternalUrlsInner`'s mark branch can reach). -/
def markHrefsNode : PMData → List String
  | .node _ a m c _ =>
    (if (attrStr a "href").isSome then []
     else m.filterMap (fun mrk => attrStr mrk.attrs "href")) ++
      markHrefsList c

def markHrefsList : List PMData → List String
  | [] => []
  | n :: rest => markHrefsNode n ++ markHrefsList rest
end

mutual
/-- The `href` values of attachment nodes that the
`replaceAttachmentUrls` href branch rewrites: attachment type, no
truthy `src`, truthy string `href`. -/
def attachmentHrefsNode : PMData → List String
  | .node t a _ c _ =>
    (if t = "attachment" && !(jsTruthy (attrGet a "src")) &&
        jsTruthy (attrGet a "href") then
      [((attrGet a "href").getD .null).jsString]
    else []) ++ attachmentHrefsList c

def attachmentHrefsList : List PMData → List String
  | [] => []
  | n :: rest => attachmentHrefsNode n ++ attachmentHrefsList rest
end

/-- The declarative filter of the `parseMentions` claim: when a filter
value is given, the mention's attribute must equal it. -/
def matchesFilterSpec (optType optModelId : Option String)
    (a : List (String × AttrValue)) : Bool :=
  (match optType with
   | none => true
   | some t => attrGet a "type" = some (.str t)) &&
  (match optModelId with
   | none => true
   | some t => attrGet a "modelId" = some (.str t))

/-- The input set over which the totality claim quantifies: null,
undefined, a non-object, an object without a (truthy) `type`, an
object failing strict construction, any (possibly malformed) markdown
string, and a valid document object. -/
def claimTotalityInput (x : PMInputV) : Prop :=
  x = .nullInput ∨ x = .undefInput ∨
  (∃ j, x = .jsonInput j ∧ jsonIsObject j = false) ∨
  (∃ j, x = .jsonInput j ∧
    jsonTruthy ((jsonField j "type").getD .jnull) = false) ∨
  (∃ j e, x = .jsonInput j ∧ fromJSON j = .error e) ∨
  (∃ s, x = .strInput s) ∨
  (∃ j d, x = .jsonInput j ∧ fromJSON j = .ok d ∧ d.typeName = "doc")

/-! ## Concrete example values used in the claim statements -/

/-- A document with one image whose `src` is an internal
attachment-redirect URL. -/
def imageRedirectDoc : PMData :=
  .node "doc" [] [] [
    .node "paragraph" [] [] [
      .node "image"
        [("src", .str "https://app.example.com/api/attachments.redirect?id=abc-123")]
        [] [] none] none] none

/-- A document whose URLs are all external. -/
def externalUrlDoc : PMData :=
  .node "doc" [] [] [
    .node "paragraph" [] [] [
      .node "text" []
        [⟨"link", [("href", .str "https://example.com/page")]⟩] []
        (some "a link"),
      .node "image" [("src", .str "https://example.com/image.png")]
        [] [] none] none] none

/-- Mention attrs helper for examples. -/
def mentionAttrsOf (id typ modelId label : String) :
    List (String × AttrValue) :=
  [("type", .str typ), ("label", .str label), ("modelId", .str modelId),
   ("id", .str id)]

/-- A document with two mention nodes sharing the id `m1`. -/
def twoM1Doc : PMData :=
  .node "doc" [] [] [
    .node "paragraph" [] [] [
      .node "mention" (mentionAttrsOf "m1" "user" "u-1" "Alice") [] [] none,
      .node "text" [] [] [] (some " and "),
      .node "mention" (mentionAttrsOf "m1" "user" "u-2" "Bob") [] [] none]
      none] none

/-- A document with one bold-marked text child, as plain data. -/
def boldDoc : PMData :=
  .node "doc" [] [] [
    .node "paragraph" [] [] [
      .node "text" [] [⟨"bold", []⟩] [] (some "hi")]
      none] none

/-- Three attachment nodes referencing three stored attachments. -/
def threeAttachmentDoc : PMData :=
  .node "doc" [] [] [
    .node "attachment"
      [("href", .str "/api/attachments.redirect?id=a1"), ("title", .str "one")]
      [] [] none,
    .node "attachment"
      [("href", .str "/api/attachments.redirect?id=b2"), ("title", .str "two")]
      [] [] none,
    .node "attachment"
      [("href", .str "/api/attachments.redirect?id=c3"), ("title", .str "three")]
      [] [] none] none

/-- The store rows for the first two attachments; the third lookup
finds nothing. -/
def twoOfThreeDb : List AttachmentRec :=
  [ { id := "a1", teamId := "team", key := "k1",
      redirectUrl := "/api/attachments.redirect?id=a1" },
    { id := "b2", teamId := "team", key := "k2",
      redirectUrl := "/api/attachments.redirect?id=b2" } ]

/-- The store rows for all three attachments. -/
def threeDb : List AttachmentRec :=
  twoOfThreeDb ++
    [ { id := "c3", teamId := "team", key := "k3",
        redirectUrl := "/api/attachments.redirect?id=c3" } ]

/-- A signer that succeeds on `k1` and `k3` but fails on `k2`. -/
def failK2Signer (key : String) : Except Unit String :=
  if key = "k2" then .error () else .ok ("https://signed.example.com/" ++ key)

/-- A signer that always succeeds. -/
def okSigner (key : String) : Except Unit String :=
  .ok ("https://signed.example.com/" ++ key)

/-- The depth-first node list of a small document for the repair pass:
a mention without id, an attachment with id `x9`, and two mentions
sharing the id `m1`. -/
def repairExampleNodes : List PassNode :=
  [ { typeName := "mention", id := none },
    { typeName := "attachment", id := some (.str "x9") },
    { typeName := "mention", id := some (.str "m1") },
    { typeName := "text", id := none },
    { typeName := "mention", id := some (.str "m1") } ]

/-- A fresh-id supply for the repair-pass witness: distinct lengths
make it injective, and no document id consists of `u` characters. -/
def uuidSupply (k : Nat) : String := String.mk (List.replicate (k + 1) 'u')

/-- The six-block exemplar document of the round-trip claim. -/
def exemplarDoc : List MBlock :=
  [ .headingB 2 [.textI "Quarterly Report"],
    .paragraphB [.textI "Written by ",
      .mentionI "u-1" "user" "m-9" "Alice", .textI " for review."],
    .tableB [["Region", "Sales"], ["North", "120"]],
    .codeB "python" "print(1)\nprint(2)",
    .attachmentB "https://x/api/attachments.redirect?id=aa-11"
      "report.pdf" 2048,
    .paragraphB [.mentionI "u-2" "document" "d-7" "Spec"] ]

/-- The attachment with an empty title that breaks the unrestricted
round-trip law. -/
def emptyTitleDoc : List MBlock :=
  [ .attachmentB "https://x/attachments.redirect?id=abc" "" 5 ]

/-- `signAttachmentUrls` with the caller's post-call view of its
document argument: the function's signature only accepts a Prosemirror
`Node`, and its first rewriting step is `doc.toJSON()`, a fresh copy,
so the caller's node is unchanged. -/
def signAttachmentUrlsCall (doc : PMData) (teamId : String)
    (db : List AttachmentRec)
    (getSignedUrl : String → Except Unit String) :
    Except Unit PMData × PMData :=
  (signAttachmentUrls doc teamId db getSignedUrl, doc)

/-! # Theorems -/

/-! ## Readiness-signal uniqueness (toPdfHtml) -/

theorem headI_cons (c : Char) (t : List Char) : (c :: t).headI = c := rfl

theorem isPrefixOf_false_of_head_ne (pat : List Char) (c : Char)
    (t : List Char) (hne : pat ≠ []) (h : pat.headI ≠ c) :
    pat.isPrefixOf (c :: t) = false := by
  cases pat with
  | nil => exact absurd rfl hne
  | cons x xs =>
    rw [headI_cons] at h
    rw [List.isPrefixOf, beq_eq_false_iff_ne.mpr h]
    simp

theorem countOccSub_zero (l pat : List Char) (hne : pat ≠ [])
    (h : pat.headI ∉ l) : countOccSub l pat = 0 := by
  induction l with
  | nil => rfl
  | cons c rest ih =>
    rw [countOccSub, isPrefixOf_false_of_head_ne pat c rest hne
      (fun he => h (he ▸ List.mem_cons_self c rest))]
    simp only [Bool.false_eq_true, if_false, Nat.zero_add]
    exact ih (fun hm => h (List.mem_cons_of_mem c hm))

theorem escapeHtml_no_lt (l : List Char) : '<' ∉ escapeHtml l := by
  intro hm
  rw [escapeHtml] at hm
  rcases List.mem_flatten.mp hm with ⟨chunk, hc, hmc⟩
  obtain ⟨c, -, rfl⟩ := List.mem_map.mp hc
  by_cases h1 : c = '&'
  · rw [escapeHtmlChar, if_pos h1] at hmc
    exact absurd hmc (by decide)
  by_cases h2 : c = '<'
  · rw [escapeHtmlChar, if_neg h1, if_pos h2] at hmc
    exact absurd hmc (by decide)
  by_cases h3 : c = '>'
  · rw [escapeHtmlChar, if_neg h1, if_neg h2, if_pos h3] at hmc
    exact absurd hmc (by decide)
  · rw [escapeHtmlChar, if_neg h1, if_neg h2, if_neg h3] at hmc
    exact h2 (List.mem_singleton.mp hmc).symm

theorem readyScriptsInMarkup_escaped (l : List Char) :
    readyScriptsInMarkup (escapeHtml l) = 0 :=
  countOccSub_zero _ _ (by decide) (by
    rw [show readyScriptMarker.headI = '<' from rfl]
    exact escapeHtml_no_lt l)

theorem readyScriptCount_serialize (hljsFails : String → String → Bool)
    (n : PMData)
    (h : n.typeName = "code_block" →
      readyScriptsInMarkup (renderedCodeMarkup hljsFails (codeLanguage n)
        (String.mk (textContentNode n))) = 0) :
    readyScriptCount (serializeNodeElem hljsFails n) = 0 := by
  by_cases h1 : n.typeName = "math_inline" ∨ n.typeName = "math_block"
  · rw [serializeNodeElem, if_pos h1]
    rfl
  by_cases h2 : n.typeName = "code_block"
  · rw [serializeNodeElem, if_neg h1, if_pos h2]
    exact h h2
  by_cases h3 : n.typeName = "embed"
  · rw [serializeNodeElem, if_neg h1, if_neg h2, if_pos h3]
    rfl
  by_cases h4 : n.typeName = "text"
  · rw [serializeNodeElem, if_neg h1, if_neg h2, if_neg h3, if_pos h4]
    rfl
  · rw [serializeNodeElem, if_neg h1, if_neg h2, if_neg h3, if_neg h4]
    rfl

theorem countReadyScripts_content (hljsFails : String → String → Bool)
    (l : List PMData)
    (h : ∀ n ∈ l, n.typeName = "code_block" →
      readyScriptsInMarkup (renderedCodeMarkup hljsFails (codeLanguage n)
        (String.mk (textContentNode n))) = 0) :
    countReadyScripts (l.map (serializeNodeElem hljsFails)) = 0 := by
  induction l with
  | nil => rfl
  | cons n rest ih =>
    rw [List.map_cons, countReadyScripts, List.map_cons, List.sum_cons,
      readyScriptCount_serialize hljsFails n
        (h n (List.mem_cons_self n rest)), Nat.zero_add]
    exact ih (fun m hm => h m (List.mem_cons_of_mem n hm))

/-- C4 counterexample: the readiness script is not unique for every
tree — a `mermaidjs` code block whose text is the literal ready-script
markup reaches `codeEl.innerHTML` raw (lines 962 and 985), so the
returned HTML contains two scripts that set the readiness flag, the
injected one and the appended one, with or without `includeMermaid`. -/
theorem toPdfHtml_ready_script_injection :
    countReadyScripts (toPdfHtmlBody scriptInjectionDoc
      { includeMermaid := some true } (fun _ _ => false)) = 2 ∧
    countReadyScripts (toPdfHtmlBody scriptInjectionDoc
      {} (fun _ _ => false)) = 2 := by
  exact ⟨by decide, by decide⟩

/-- C4 (amended): the body produced by `toPdfHtml` contains exactly
one script setting the readiness flag `window.status = "ready"` for
every options value and highlighter behaviour, provided no code block
whose markup is inserted raw (a `mermaidjs` block, or one whose
highlighting throws) carries a ready-script element in its text; in
particular this holds for `includeMermaid := true` on a tree without
mermaid code blocks.  Without that proviso the raw `innerHTML`
assignment of the code-block branch can inject a second readiness
script: see the counterexample. -/
theorem toPdfHtml_ready_script_unique (doc : PMData)
    (opts : PdfHtmlOptions) (hljsFails : String → String → Bool)
    (h : ∀ n ∈ doc.content, n.typeName = "code_block" →
      readyScriptsInMarkup (renderedCodeMarkup hljsFails (codeLanguage n)
        (String.mk (textContentNode n))) = 0) :
    countReadyScripts (toPdfHtmlBody doc opts hljsFails) = 1 := by
  unfold toPdfHtmlBody countReadyScripts
  rw [List.map_append, List.sum_append]
  have hc := countReadyScripts_content hljsFails doc.content h
  unfold countReadyScripts at hc
  rw [hc, Nat.zero_add]
  split
  · split <;> rfl
  · rfl

theorem toPdfHtml_ready_script_unique_witness :
    countReadyScripts (toPdfHtmlBody emptyDocNode
      { includeMermaid := some true } (fun _ _ => false)) = 1 :=
  toPdfHtml_ready_script_unique emptyDocNode
    { includeMermaid := some true } (fun _ _ => false) (by decide)

/-! ## The mutation claims (removeMarks / replaceInternalUrls /
signAttachmentUrls) -/

/-- C7 counterexample: `removeMarks` called with a plain
`ProsemirrorData` object mutates the caller's object — after the call
the caller's document has lost the `bold` mark it had before. -/
theorem removeMarks_mutates_plain_data :
    ((removeMarksCall (.dataInput boldDoc) ["bold"]).2.tree.content.headI.content.headI.marks
        = []) ∧
    boldDoc.content.headI.content.headI.marks = [⟨"bold", []⟩] := by
  constructor
  · rfl
  · rfl

/-- C7 amended: `removeMarks` and `replaceInternalUrls` leave the
caller's value unchanged when it is a Prosemirror `Node` (they rewrite
the fresh `toJSON()` copy), and when it is a plain JSON object they
mutate it in place, the caller's object becoming the returned
structure; `signAttachmentUrls`, which only accepts a `Node`, never
mutates its argument. -/
theorem mutation_behaviour (d : PMData) (marks : List String)
    (basePath teamId : String) (db : List AttachmentRec)
    (sign : String → Except Unit String) :
    (removeMarksCall (.nodeInput d) marks).2 = .nodeInput d ∧
    (replaceInternalUrlsCall (.nodeInput d) basePath).2 = .nodeInput d ∧
    (removeMarksCall (.dataInput d) marks).2 =
      .dataInput (removeMarksCall (.dataInput d) marks).1 ∧
    (jsEndsWith basePath "/" = false →
      (replaceInternalUrlsCall (.dataInput d) basePath).2 =
        .dataInput (replaceInternalUrlsInnerNode basePath d)) ∧
    (jsEndsWith basePath "/" = true →
      (replaceInternalUrlsCall (.dataInput d) basePath).2 =
        .dataInput d) ∧
    (signAttachmentUrlsCall d teamId db sign).2 = d := by
  refine ⟨rfl, ?_, rfl, ?_, ?_, rfl⟩
  · unfold replaceInternalUrlsCall
    split
    · rfl
    · rfl
  · intro h
    unfold replaceInternalUrlsCall
    simp [h, PMInput.tree]
  · intro h
    unfold replaceInternalUrlsCall
    simp [h]

theorem mutation_behaviour_witness :
    jsEndsWith "https://ex" "/" = false ∧
    (replaceInternalUrlsCall (.dataInput boldDoc) "https://ex").2 =
      .dataInput (replaceInternalUrlsInnerNode "https://ex" boldDoc) :=
  ⟨by decide,
    (mutation_behaviour boldDoc ["bold"] "https://ex" "team" []
      okSigner).2.2.2.1 (by decide)⟩

/-! ## Totality of toProsemirror -/

theorem toProsemirror_json_error (parseFn : String → Except String (Option PMData))
    (j : Json) (e : String) (he : fromJSON j = .error e) :
    toProsemirror parseFn (.jsonInput j) = emptyDocNode := by
  by_cases hb : (!jsonTruthy j || !jsonIsObject j ||
      !jsonTruthy ((jsonField j "type").getD .jnull)) = true
  · simp [toProsemirror, hb]
  · simp [toProsemirror, hb, he]

theorem fromJSON_ok_type (j : Json) (d : PMData) (h : fromJSON j = .ok d) :
    ∃ t spec, jsonField j "type" = some (.jstr t) ∧
      nodeRegistry.find? (fun s => s.name = t) = some spec := by
  unfold fromJSON fromJSONFuel at h
  split at h
  · rename_i t heq
    split at h
    · exact absurd h (by simp)
    · rename_i spec hf
      exact ⟨t, spec, heq, hf⟩
  · exact absurd h (by simp)

theorem fromJSON_ok_obj (j : Json) (d : PMData) (h : fromJSON j = .ok d) :
    jsonIsObject j = true ∧ jsonTruthy j = true ∧
    jsonTruthy ((jsonField j "type").getD .jnull) = true := by
  obtain ⟨t, spec, hj, hf⟩ := fromJSON_ok_type j d h
  have hobj : jsonIsObject j = true := by
    cases j <;> simp_all [jsonField, jsonIsObject]
  have htr : jsonTruthy j = true := by
    cases j <;> simp_all [jsonField, jsonTruthy]
  refine ⟨hobj, htr, ?_⟩
  have hmem := List.mem_of_find?_eq_some hf
  have hname : spec.name = t := by
    have := List.find?_some hf
    simpa using this
  have hall : nodeRegistry.all (fun s => !(s.name = "")) = true := by
    decide
  have hne : t ≠ "" := by
    rw [← hname]
    have := List.all_eq_true.mp hall spec hmem
    simpa using this
  simp [hj, jsonTruthy, hne]

/-- C2: `toProsemirror` is total over the claim's input set — for
null, undefined, non-objects, objects without a truthy `type`, objects
failing strict construction, arbitrary markdown strings, and valid
document objects it always returns a `doc`-typed node, never raising
(the embedding catches every construction error), and it substitutes
the empty document whenever construction fails. -/
theorem toProsemirror_total
    (parseFn : String → Except String (Option PMData))
    (hp : ∀ s n, parseFn s = .ok (some n) → n.typeName = "doc")
    (x : PMInputV) (hx : claimTotalityInput x) :
    (toProsemirror parseFn x).typeName = "doc" ∧
    (∀ j e, x = .jsonInput j → fromJSON j = .error e →
      toProsemirror parseFn x = emptyDocNode) := by
  have hsecond : ∀ j e, x = .jsonInput j → fromJSON j = .error e →
      toProsemirror parseFn x = emptyDocNode := by
    intro j e hxj he
    subst hxj
    exact toProsemirror_json_error parseFn j e he
  refine ⟨?_, hsecond⟩
  rcases hx with h | h | ⟨j, rfl, hobj⟩ | ⟨j, rfl, hty⟩ |
    ⟨j, e, rfl, herr⟩ | ⟨s, rfl⟩ | ⟨j, d, rfl, hok, hdoc⟩
  · subst h; rfl
  · subst h; rfl
  · simp [toProsemirror, hobj, emptyDocNode, PMData.typeName]
  · simp [toProsemirror, hty, emptyDocNode, PMData.typeName]
  · rw [toProsemirror_json_error parseFn j e herr]; rfl
  · cases hps : parseFn s with
    | error e => simp [toProsemirror, hps, emptyDocNode, PMData.typeName]
    | ok o =>
      cases o with
      | none => simp [toProsemirror, hps, emptyDocNode, PMData.typeName]
      | some n =>
        have : toProsemirror parseFn (.strInput s) = n := by
          simp [toProsemirror, hps]
        rw [this]
        exact hp s n hps
  · obtain ⟨hobj, htr, hty⟩ := fromJSON_ok_obj j d hok
    have : toProsemirror parseFn (.jsonInput j) = d := by
      simp [toProsemirror, hobj, htr, hty, hok]
    rw [this]
    exact hdoc

theorem toProsemirror_total_witness :
    (toProsemirror (fun _ => .error "parse failure")
      (.strInput "[[ not markdown")).typeName = "doc" :=
  (toProsemirror_total (fun _ => .error "parse failure")
    (by intro s n h; cases h)
    (.strInput "[[ not markdown")
    (Or.inr (Or.inr (Or.inr (Or.inr (Or.inr (Or.inl
      ⟨"[[ not markdown", rfl⟩))))))).1

/-! ## replaceInternalUrls: precondition and rewriting -/

theorem attrGet_setAttr (attrs : List (String × AttrValue))
    (name : String) (v : AttrValue) :
    attrGet (setAttr attrs name v) name = some v := by
  induction attrs with
  | nil => simp [setAttr, attrGet]
  | cons p rest ih =>
    obtain ⟨k, w⟩ := p
    by_cases hk : k = name
    · simp [setAttr, hk, attrGet]
    · simp only [setAttr, if_neg hk]
      simpa [attrGet, List.find?_cons, hk] using ih

theorem attrStr_setAttr (attrs : List (String × AttrValue))
    (name : String) (s : String) :
    attrStr (setAttr attrs name (.str s)) name = some s := by
  simp [attrStr, attrGet_setAttr]

mutual
theorem nodeHrefs_inner (basePath : String) (n : PMData) :
    nodeHrefsNode (replaceInternalUrlsInnerNode basePath n) =
      (nodeHrefsNode n).map (replaceUrl basePath) := by
  cases n with
  | node t a m c tx =>
    have ihc := nodeHrefs_innerList basePath c
    cases ha : attrStr a "href" with
    | some h =>
      simp only [replaceInternalUrlsInnerNode, ha, nodeHrefsNode,
        attrStr_setAttr, ihc, List.map_append, List.map_cons,
        List.map_nil, Option.isSome]
    | none =>
      simp only [replaceInternalUrlsInnerNode, ha, nodeHrefsNode, ihc,
        List.map_append, List.map_nil]

theorem nodeHrefs_innerList (basePath : String) (l : List PMData) :
    nodeHrefsList (replaceInternalUrlsInnerList basePath l) =
      (nodeHrefsList l).map (replaceUrl basePath) := by
  cases l with
  | nil => rfl
  | cons n rest =>
    have ihn := nodeHrefs_inner basePath n
    have ihr := nodeHrefs_innerList basePath rest
    simp only [replaceInternalUrlsInnerList, nodeHrefsList, ihn, ihr,
      List.map_append]
end

theorem markHrefs_filterMap (basePath : String) (m : List MarkData) :
    (m.map (fun mrk =>
      match attrStr mrk.attrs "href" with
      | some h =>
        if isInternalUrl h then
          let rewritten := setAttr mrk.attrs "href"
            (.str (replaceUrl basePath h))
          { mrk with attrs := rewritten }
        else mrk
      | none => mrk)).filterMap (fun mrk => attrStr mrk.attrs "href") =
    (m.filterMap (fun mrk => attrStr mrk.attrs "href")).map
      (fun h => if isInternalUrl h then replaceUrl basePath h else h) := by
  induction m with
  | nil => rfl
  | cons mrk rest ih =>
    simp only [List.map_cons, List.filterMap_cons]
    cases hm : attrStr mrk.attrs "href" with
    | some h =>
      by_cases hi : isInternalUrl h = true
      · simp [hm, hi, attrStr_setAttr, ih]
      · simp [hm, hi, ih]
    | none => simp [hm, ih]

mutual
theorem markHrefs_inner (basePath : String) (n : PMData) :
    markHrefsNode (replaceInternalUrlsInnerNode basePath n) =
      (markHrefsNode n).map
        (fun h => if isInternalUrl h then replaceUrl basePath h else h) := by
  cases n with
  | node t a m c tx =>
    have ihc := markHrefs_innerList basePath c
    cases ha : attrStr a "href" with
    | some h =>
      simp only [replaceInternalUrlsInnerNode, ha, markHrefsNode,
        attrStr_setAttr, ihc, List.map_append, Option.isSome,
        if_true, List.map_nil, List.nil_append]
    | none =>
      simp only [replaceInternalUrlsInnerNode, ha, markHrefsNode, ihc,
        List.map_append, Option.isSome, Bool.false_eq_true,
        if_false, markHrefs_filterMap]

theorem markHrefs_innerList (basePath : String) (l : List PMData) :
    markHrefsList (replaceInternalUrlsInnerList basePath l) =
      (markHrefsList l).map
        (fun h => if isInternalUrl h then replaceUrl basePath h else h) := by
  cases l with
  | nil => rfl
  | cons n rest =>
    have ihn := markHrefs_inner basePath n
    have ihr := markHrefs_innerList basePath rest
    simp only [replaceInternalUrlsInnerList, markHrefsList, ihn, ihr,
      List.map_append]
end

/-- C8: `replaceInternalUrls` rejects exactly when `basePath` ends in
a path separator; otherwise it returns normally with every node
`href` rewritten by inserting `basePath` ahead of the `/doc/` segment
and every internal mark `href` rewritten likewise. -/
theorem replaceInternalUrls_spec (doc : PMData) (basePath : String) :
    ((∃ e, replaceInternalUrls doc basePath = .error e) ↔
      jsEndsWith basePath "/" = true) ∧
    (jsEndsWith basePath "/" = false →
      replaceInternalUrls doc basePath =
        .ok (replaceInternalUrlsInnerNode basePath doc)) ∧
    nodeHrefsNode (replaceInternalUrlsInnerNode basePath doc) =
      (nodeHrefsNode doc).map (replaceUrl basePath) ∧
    markHrefsNode (replaceInternalUrlsInnerNode basePath doc) =
      (markHrefsNode doc).map
        (fun h => if isInternalUrl h then replaceUrl basePath h else h) := by
  refine ⟨?_, ?_, nodeHrefs_inner basePath doc, markHrefs_inner basePath doc⟩
  · constructor
    · rintro ⟨e, he⟩
      by_contra hne
      unfold replaceInternalUrls at he
      rw [Bool.not_eq_true] at hne
      rw [hne] at he
      cases he
    · intro h
      refine ⟨"internalUrlBase must not end with a slash", ?_⟩
      unfold replaceInternalUrls
      rw [h]
      rfl
  · intro h
    unfold replaceInternalUrls
    rw [h]
    rfl

theorem replaceInternalUrls_spec_witness :
    replaceInternalUrls boldDoc "https://base.example.com" =
      .ok (replaceInternalUrlsInnerNode "https://base.example.com" boldDoc) :=
  (replaceInternalUrls_spec boldDoc "https://base.example.com").2.1 (by decide)

/-! ## parseAttachmentIds -/

theorem mem_uniqFirstAux [DecidableEq α] (seen l : List α) (x : α) :
    x ∈ uniqFirstAux seen l ↔ x ∈ l ∧ x ∉ seen := by
  induction l generalizing seen with
  | nil => simp [uniqFirstAux]
  | cons a rest ih =>
    by_cases ha : a ∈ seen
    · rw [uniqFirstAux, if_pos ha, ih]
      constructor
      · rintro ⟨h1, h2⟩; exact ⟨.tail _ h1, h2⟩
      · rintro ⟨h1, h2⟩
        cases List.mem_cons.mp h1 with
        | inl he => subst he; exact absurd ha h2
        | inr ht => exact ⟨ht, h2⟩
    · rw [uniqFirstAux, if_neg ha]
      constructor
      · intro hx
        cases List.mem_cons.mp hx with
        | inl he => subst he; exact ⟨List.mem_cons_self _ _, ha⟩
        | inr ht =>
          obtain ⟨h1, h2⟩ := (ih _).mp ht
          exact ⟨.tail _ h1, fun hs => h2 (.tail _ hs)⟩
      · rintro ⟨h1, h2⟩
        cases List.mem_cons.mp h1 with
        | inl he => subst he; exact List.mem_cons_self _ _
        | inr ht =>
          by_cases hxa : x = a
          · subst hxa; exact List.mem_cons_self _ _
          · refine List.mem_cons_of_mem _ ((ih _).mpr ⟨ht, ?_⟩)
            intro hs
            cases List.mem_cons.mp hs with
            | inl he => exact hxa he
            | inr hs' => exact h2 hs'

theorem nodup_uniqFirstAux [DecidableEq α] (seen l : List α) :
    (uniqFirstAux seen l).Nodup := by
  induction l generalizing seen with
  | nil => simp [uniqFirstAux]
  | cons a rest ih =>
    by_cases ha : a ∈ seen
    · rw [uniqFirstAux, if_pos ha]; exact ih _
    · rw [uniqFirstAux, if_neg ha]
      refine List.nodup_cons.mpr ⟨?_, ih _⟩
      intro hmem
      obtain ⟨_, h2⟩ := (mem_uniqFirstAux _ _ _).mp hmem
      exact h2 (List.mem_cons_self _ _)

/-- C5: `parseAttachmentIds` returns the ids extracted from the
collected link-mark/image/video/attachment URLs by the
attachment-redirect pattern, deduplicated; the image with an internal
redirect href yields `["abc-123"]` and the all-external tree yields
`[]`. -/
theorem parseAttachmentIds_spec (doc : PMData) :
    (parseAttachmentIds doc).Nodup ∧
    (∀ idv, idv ∈ parseAttachmentIds doc ↔
      ∃ url ∈ collectUrls doc, idv ∈ extractAttachmentIds url.data) ∧
    parseAttachmentIds imageRedirectDoc = ["abc-123"] ∧
    parseAttachmentIds externalUrlDoc = [] := by
  refine ⟨nodup_uniqFirstAux _ _, ?_, by decide, by decide⟩
  intro idv
  unfold parseAttachmentIds uniqFirst
  rw [mem_uniqFirstAux]
  simp [List.mem_flatMap]

/-! ## parseMentions -/

theorem andE {a b : Bool} (h : (a && b) = true) : a = true ∧ b = true := by
  simp only [Bool.and_eq_true] at h
  exact h

theorem dedupFirstByAux_nil [DecidableEq β] (key : α → β) (seen : List β) :
    dedupFirstByAux key seen [] = [] := rfl

theorem dedupFirstByAux_cons [DecidableEq β] (key : α → β) (seen : List β)
    (x : α) (xs : List α) :
    dedupFirstByAux key seen (x :: xs) =
      if key x ∈ seen then dedupFirstByAux key seen xs
      else x :: dedupFirstByAux key (key x :: seen) xs := rfl

theorem dedupFirstByAux_congr [DecidableEq β] (key : α → β)
    (s1 s2 : List β) (h : ∀ k, k ∈ s1 ↔ k ∈ s2) (l : List α) :
    dedupFirstByAux key s1 l = dedupFirstByAux key s2 l := by
  induction l generalizing s1 s2 with
  | nil => rfl
  | cons x xs ih =>
    by_cases hx : key x ∈ s1
    · rw [dedupFirstByAux, if_pos hx, dedupFirstByAux,
        if_pos ((h _).mp hx)]
      exact ih _ _ h
    · rw [dedupFirstByAux, if_neg hx, dedupFirstByAux,
        if_neg (fun hh => hx ((h _).mpr hh))]
      congr 1
      refine ih _ _ ?_
      intro k
      simp [List.mem_cons, h k]

theorem dedupFirstByAux_append [DecidableEq β] (key : α → β)
    (l1 l2 : List α) (seen : List β) :
    dedupFirstByAux key seen (l1 ++ l2) =
      dedupFirstByAux key seen l1 ++
        dedupFirstByAux key
          ((dedupFirstByAux key seen l1).map key ++ seen) l2 := by
  induction l1 generalizing seen with
  | nil => simp [dedupFirstByAux]
  | cons x xs ih =>
    by_cases hx : key x ∈ seen
    · rw [List.cons_append, dedupFirstByAux, if_pos hx,
        dedupFirstByAux, if_pos hx, ih]
    · rw [List.cons_append, dedupFirstByAux, if_neg hx,
        dedupFirstByAux, if_neg hx, ih]
      simp only [List.map_cons, List.cons_append]
      congr 1
      congr 1
      apply dedupFirstByAux_congr
      intro k
      simp only [List.mem_cons, List.mem_append]
      tauto

/-- The applicability test decomposed: mention type, filter pass, and
an unseen id. -/
theorem isApplicableMention_eq (optType optModelId : Option String)
    (acc : List (List (String × AttrValue)))
    (t : String) (a : List (String × AttrValue)) (m : List MarkData)
    (c : List PMData) (tx : Option String) :
    isApplicableMention optType optModelId acc (.node t a m c tx) =
      (t = "mention" && passesFilter optType optModelId a &&
        !((acc.map (fun r => attrGet r "id")).contains (attrGet a "id"))) := by
  unfold isApplicableMention passesFilter
  simp only [PMData.typeName, PMData.attrs, PMData.attr]
  by_cases ht : t = "mention"
  · simp only [ht, decide_True, Bool.true_and]
    congr 1
    simp [List.any_eq, List.contains_eq_any_beq, List.any_map]
  · simp [ht]

mutual
theorem parseMentionsNode_dfs (optType optModelId : Option String)
    (acc : List (List (String × AttrValue))) (n : PMData)
    (hAtom : mentionsAtomicNode n = true) :
    parseMentionsNode optType optModelId acc n =
      acc ++ dedupFirstByAux (fun a => attrGet a "id")
        (acc.map (fun a => attrGet a "id"))
        ((dfsMentionsNode n).filter (passesFilter optType optModelId)) := by
  cases n with
  | node t a m c tx =>
    unfold mentionsAtomicNode at hAtom
    have h1 : (t ≠ "mention" || c.isEmpty) = true := by
      exact (andE hAtom).1
    have h2 : mentionsAtomicList c = true :=
      (andE hAtom).2
    by_cases ht : t = "mention"
    · have hc : c = [] := by
        subst ht
        simpa using h1
      subst hc
      rw [parseMentionsNode, isApplicableMention_eq]
      simp only [ht, decide_True, Bool.true_and, dfsMentionsNode,
        dfsMentionsList, List.append_nil]
      by_cases hp : passesFilter optType optModelId a = true
      · simp only [hp, Bool.true_and, List.filter_cons, List.filter_nil]
        by_cases hk : (acc.map (fun r => attrGet r "id")).contains
            (attrGet a "id")
        · simp only [hk, Bool.not_true, if_false]
          rw [parseMentionsList]
          simp only [if_true, List.filter_cons, hp, if_pos trivial,
            List.filter_nil]
          rw [dedupFirstByAux_cons,
            if_pos (List.elem_iff.mp hk)]
          simp [dedupFirstByAux_nil]
        · simp only [hk, Bool.not_false, if_true]
          simp only [List.filter_cons, hp, if_pos trivial,
            List.filter_nil]
          rw [dedupFirstByAux_cons,
            if_neg (fun hmem => hk (List.elem_iff.mpr hmem))]
          simp [dedupFirstByAux_nil]
      · simp only [hp]
        simp only [Bool.false_and, Bool.and_false, if_false]
        rw [parseMentionsList]
        simp [List.filter_cons, hp, dedupFirstByAux]
    · rw [parseMentionsNode, isApplicableMention_eq]
      simp only [ht, decide_False, Bool.false_and, if_false]
      have : dfsMentionsNode (.node t a m c tx) = dfsMentionsList c := by
        unfold dfsMentionsNode
        simp [ht]
      rw [this]
      exact parseMentionsList_dfs optType optModelId acc c h2

theorem parseMentionsList_dfs (optType optModelId : Option String)
    (acc : List (List (String × AttrValue))) (l : List PMData)
    (hAtom : mentionsAtomicList l = true) :
    parseMentionsList optType optModelId acc l =
      acc ++ dedupFirstByAux (fun a => attrGet a "id")
        (acc.map (fun a => attrGet a "id"))
        ((dfsMentionsList l).filter (passesFilter optType optModelId)) := by
  cases l with
  | nil =>
    rw [parseMentionsList]
    simp [dfsMentionsList, dedupFirstByAux]
  | cons n rest =>
    unfold mentionsAtomicList at hAtom
    have h1 : mentionsAtomicNode n = true :=
      (andE hAtom).1
    have h2 : mentionsAtomicList rest = true :=
      (andE hAtom).2
    rw [parseMentionsList]
    rw [parseMentionsList_dfs optType optModelId _ rest h2]
    rw [parseMentionsNode_dfs optType optModelId acc n h1]
    rw [dfsMentionsList, List.filter_append,
      dedupFirstByAux_append]
    rw [List.append_assoc]
    congr 2
    apply dedupFirstByAux_congr
    intro k
    simp only [List.map_append, List.mem_append]
    tauto
end

theorem passesFilter_eq_spec (optType optModelId : Option String)
    (hT : optType ≠ some "") (hM : optModelId ≠ some "")
    (a : List (String × AttrValue)) :
    passesFilter optType optModelId a =
      matchesFilterSpec optType optModelId a := by
  unfold passesFilter matchesFilterSpec filterRejects
  congr 1
  · cases optType with
    | none => rfl
    | some t =>
      have ht : ¬(t = "") := fun h => hT (by rw [h])
      simp [ht]
  · cases optModelId with
    | none => rfl
    | some t =>
      have ht : ¬(t = "") := fun h => hM (by rw [h])
      simp [ht]

/-- C6: `parseMentions` returns, in depth-first first-seen order, the
first occurrence of each unique mention id among the mentions matching
the optional type/modelId filter; in particular a tree with two
mentions sharing id `m1` yields only the first occurrence. -/
theorem parseMentions_spec (doc : PMData) (optType optModelId : Option String)
    (hAtom : mentionsAtomicNode doc = true)
    (hT : optType ≠ some "") (hM : optModelId ≠ some "") :
    parseMentions doc optType optModelId =
      dedupFirstBy (fun a => attrGet a "id")
        ((dfsMentions doc).filter (matchesFilterSpec optType optModelId)) ∧
    parseMentions twoM1Doc none none =
      [mentionAttrsOf "m1" "user" "u-1" "Alice"] := by
  constructor
  · have hAtomContent : mentionsAtomicList doc.content = true := by
      cases doc with
      | node t a m c tx =>
        unfold mentionsAtomicNode at hAtom
        exact (andE hAtom).2
    unfold parseMentions dedupFirstBy dfsMentions
    rw [parseMentionsList_dfs optType optModelId [] doc.content hAtomContent]
    simp only [List.map_nil, List.nil_append]
    congr 1
    apply List.filter_congr
    intro a _
    exact passesFilter_eq_spec optType optModelId hT hM a
  · decide

theorem parseMentions_spec_witness :
    parseMentions twoM1Doc none none =
      dedupFirstBy (fun a => attrGet a "id")
        ((dfsMentions twoM1Doc).filter (matchesFilterSpec none none)) :=
  (parseMentions_spec twoM1Doc none none (by decide) (by decide)
    (by decide)).1

/-! ## signAttachmentUrls -/

theorem toDigitsCore_length_ge (b : Nat) (f : Nat) :
    ∀ (n : Nat) (l : List Char),
      l.length ≤ (Nat.toDigitsCore b f n l).length := by
  induction f with
  | zero => intro n l; simp [Nat.toDigitsCore]
  | succ f ih =>
    intro n l
    by_cases hz : n / b = 0
    · simp [Nat.toDigitsCore, hz]
    · simp only [Nat.toDigitsCore, hz, if_false]
      calc l.length ≤ ((n % b).digitChar :: l).length := by simp
        _ ≤ _ := ih _ _

theorem nat_repr_ne_empty (n : Nat) : Nat.repr n ≠ "" := by
  intro h
  have hd : Nat.toDigits 10 n = [] := by
    have := congrArg String.data h
    simpa [Nat.repr, List.asString] using this
  have h1 : 1 ≤ (Nat.toDigits 10 n).length := by
    by_cases hz : n / 10 = 0
    · simp [Nat.toDigits, Nat.toDigitsCore, hz]
    · simp only [Nat.toDigits, Nat.toDigitsCore, hz, if_false]
      calc 1 ≤ ([(n % 10).digitChar] : List Char).length := by simp
        _ ≤ _ := toDigitsCore_length_ge 10 n (n / 10) _
  rw [hd] at h1
  simp at h1

theorem int_toString_ne_empty (n : Int) : toString n ≠ "" := by
  show Int.repr n ≠ ""
  cases n with
  | ofNat m => exact nat_repr_ne_empty m
  | negSucc m =>
    intro h
    have hd := congrArg String.data h
    rw [show ("" : String).data = [] from rfl] at hd
    have : (Int.repr (.negSucc m)).data =
        ("-".data ++ (Nat.repr m.succ).data) := by
      simp [Int.repr, String.data_append]
    rw [this] at hd
    simp at hd

theorem jsString_ne_empty (v : AttrValue) (h : v.truthy = true) :
    v.jsString ≠ "" := by
  cases v with
  | str s => simpa [AttrValue.truthy] using h
  | num n => exact int_toString_ne_empty n
  | bool b =>
    cases b with
    | true => simp [AttrValue.jsString]
    | false => simp [AttrValue.truthy] at h
  | null => simp [AttrValue.truthy] at h

theorem getMapping_ne_empty (mapping : List (String × String))
    (hm : ∀ p ∈ mapping, p.2 ≠ "") (s : String) (hs : s ≠ "") :
    getMapping mapping s ≠ "" := by
  unfold getMapping
  split
  · rename_i p hf
    exact hm p (List.mem_of_find?_eq_some hf)
  · exact hs

theorem attrGet_setAttr_ne (attrs : List (String × AttrValue))
    (name other : String) (v : AttrValue) (h : other ≠ name) :
    attrGet (setAttr attrs name v) other = attrGet attrs other := by
  have hno : (decide (name = other)) = false := by
    simp only [decide_eq_false_iff_not]
    exact fun hh => h hh.symm
  induction attrs with
  | nil => simp [setAttr, attrGet, List.find?_cons, hno]
  | cons p rest ih =>
    obtain ⟨k, w⟩ := p
    by_cases hk : k = name
    · subst hk
      simp only [setAttr, if_pos rfl]
      simp [attrGet, List.find?_cons, hno]
    · simp only [setAttr, if_neg hk]
      by_cases hko : k = other
      · subst hko
        simp [attrGet, List.find?_cons]
      · have hko' : (decide (k = other)) = false := by
          simp [hko]
        simp only [attrGet, List.find?_cons, hko']
        simpa [attrGet] using ih

mutual
theorem attachmentHrefs_sign (mapping : List (String × String))
    (hm : ∀ p ∈ mapping, p.2 ≠ "") (n : PMData) :
    attachmentHrefsNode (replaceAttachmentUrlsNode mapping n) =
      (attachmentHrefsNode n).map (getMapping mapping) := by
  cases n with
  | node t a m c tx =>
    have ihc := attachmentHrefs_signList mapping hm c
    rw [replaceAttachmentUrlsNode]
    simp only [attachmentHrefsNode]
    rw [List.map_append, ihc]
    congr 1
    by_cases hsrc : jsTruthy (attrGet a "src") = true
    · have hne : ((attrGet a "src").getD .null).jsString ≠ "" := by
        apply jsString_ne_empty
        cases hv : attrGet a "src" with
        | none => rw [hv] at hsrc; simp [jsTruthy] at hsrc
        | some v => rw [hv] at hsrc; simpa [jsTruthy] using hsrc
      have hgne := getMapping_ne_empty mapping hm _ hne
      rw [if_pos hsrc, attrGet_setAttr]
      have hout : jsTruthy (some (AttrValue.str (getMapping mapping
          (((attrGet a "src").getD .null).jsString)))) = true := by
        simpa [jsTruthy, AttrValue.truthy] using hgne
      simp [hsrc, hout]
    · by_cases hhref : jsTruthy (attrGet a "href") = true
      · have hsv : ((attrGet a "href").getD .null).jsString ≠ "" := by
          apply jsString_ne_empty
          cases hv : attrGet a "href" with
          | none => rw [hv] at hhref; simp [jsTruthy] at hhref
          | some v => rw [hv] at hhref; simpa [jsTruthy] using hhref
        have hgne := getMapping_ne_empty mapping hm _ hsv
        have hsrc' : attrGet (setAttr a "href"
            (.str (getMapping mapping
              (((attrGet a "href").getD .null).jsString)))) "src" =
            attrGet a "src" := attrGet_setAttr_ne _ _ _ _ (by decide)
        rw [if_neg hsrc, if_pos hhref, attrGet_setAttr, hsrc']
        have hout : jsTruthy (some (AttrValue.str (getMapping mapping
            (((attrGet a "href").getD .null).jsString)))) = true := by
          simpa [jsTruthy, AttrValue.truthy] using hgne
        by_cases ht : t = "attachment"
        · simp [hsrc, hhref, ht, AttrValue.jsString]
          simpa [AttrValue.jsString] using hout
        · simp [ht]
      · rw [if_neg hsrc, if_neg hhref]
        simp [hhref]

theorem attachmentHrefs_signList (mapping : List (String × String))
    (hm : ∀ p ∈ mapping, p.2 ≠ "") (l : List PMData) :
    attachmentHrefsList (replaceAttachmentUrlsList mapping l) =
      (attachmentHrefsList l).map (getMapping mapping) := by
  cases l with
  | nil => rfl
  | cons n rest =>
    rw [replaceAttachmentUrlsList, attachmentHrefsList,
      attachmentHrefsList, attachmentHrefs_sign mapping hm n,
      attachmentHrefs_signList mapping hm rest, List.map_append]
end

theorem buildMapping_ok (atts : List AttachmentRec)
    (sign : String → Except Unit String)
    (h : ∀ a ∈ atts, ∃ u, sign a.key = .ok u ∧ u ≠ "") :
    ∃ mapping, buildMapping atts sign = .ok mapping ∧
      ∀ p ∈ mapping, p.2 ≠ "" := by
  induction atts with
  | nil => exact ⟨[], rfl, by simp⟩
  | cons a rest ih =>
    obtain ⟨u, hu, hune⟩ := h a (List.mem_cons_self _ _)
    obtain ⟨mp, hmp, hall⟩ := ih (fun b hb => h b (.tail _ hb))
    refine ⟨(a.redirectUrl, u) :: mp, ?_, ?_⟩
    · rw [buildMapping, hu, hmp]
    · intro p hp
      cases List.mem_cons.mp hp with
      | inl he => subst he; exact hune
      | inr ht => exact hall p ht

theorem getMapping_unmatched (mapping : List (String × String))
    (href : String)
    (h : ∀ p ∈ mapping, jsStartsWith href p.1 = false ∧
      ∀ r, jsUrlRelative href = some r → jsStartsWith r p.1 = false) :
    getMapping mapping href = href := by
  unfold getMapping
  split
  · rename_i p hf
    exfalso
    have hmem := List.mem_of_find?_eq_some hf
    have hp := List.find?_some hf
    obtain ⟨h1, h2⟩ := h p hmem
    rw [h1] at hp
    cases hr : jsUrlRelative href with
    | none => rw [hr] at hp; simp at hp
    | some r => rw [hr] at hp; simp [h2 r hr] at hp
  · rfl

/-- C3 counterexample: all attachment references of the tree resolve
(three stored attachments), only the signing of `k2` fails, yet the
whole `signAttachmentUrls` call rejects — no JSON result with the
other two rewritten is returned. -/
theorem signAttachmentUrls_rejects_on_signing_failure :
    findAttachments threeDb (parseAttachmentIds threeAttachmentDoc) "team" =
      threeDb ∧
    failK2Signer "k1" = .ok "https://signed.example.com/k1" ∧
    failK2Signer "k3" = .ok "https://signed.example.com/k3" ∧
    failK2Signer "k2" = .error () ∧
    signAttachmentUrls threeAttachmentDoc "team" threeDb failK2Signer =
      .error () :=
  ⟨by decide, rfl, rfl, rfl, rfl⟩

/-- C3 amended: an attachment whose *lookup* fails (its id resolves to
no stored row) does not abort signing — when every resolved
attachment's signed URL is obtained, the call returns JSON in which
each attachment href is rewritten through the mapping and every URL
matching no mapping entry (in particular the unresolved attachment's)
is left unchanged; but a rejection from the storage signer itself
rejects the whole call.  Concretely, with the third of three lookups
failing, the other two hrefs are rewritten and the third is
unchanged. -/
theorem signAttachmentUrls_partial_lookup (doc : PMData)
    (teamId : String) (db : List AttachmentRec)
    (sign : String → Except Unit String)
    (hsign : ∀ a ∈ findAttachments db (parseAttachmentIds doc) teamId,
      ∃ u, sign a.key = .ok u ∧ u ≠ "") :
    (∃ mapping,
      buildMapping (findAttachments db (parseAttachmentIds doc) teamId)
        sign = .ok mapping ∧
      signAttachmentUrls doc teamId db sign =
        .ok (replaceAttachmentUrlsNode mapping doc) ∧
      attachmentHrefsNode (replaceAttachmentUrlsNode mapping doc) =
        (attachmentHrefsNode doc).map (getMapping mapping)) ∧
    (∀ mapping href,
      (∀ p ∈ mapping, jsStartsWith href p.1 = false ∧
        ∀ r, jsUrlRelative href = some r → jsStartsWith r p.1 = false) →
      getMapping mapping href = href) ∧
    (signAttachmentUrls threeAttachmentDoc "team" twoOfThreeDb
        okSigner).map attachmentHrefsNode =
      .ok ["https://signed.example.com/k1", "https://signed.example.com/k2",
        "/api/attachments.redirect?id=c3"] := by
  refine ⟨?_, getMapping_unmatched, by rfl⟩
  obtain ⟨mapping, hmp, hall⟩ := buildMapping_ok _ sign hsign
  refine ⟨mapping, hmp, ?_, attachmentHrefs_sign mapping hall doc⟩
  unfold signAttachmentUrls
  rw [hmp]

theorem signAttachmentUrls_partial_lookup_witness :
    (signAttachmentUrls threeAttachmentDoc "team" twoOfThreeDb
        okSigner).map attachmentHrefsNode =
      .ok ["https://signed.example.com/k1", "https://signed.example.com/k2",
        "/api/attachments.redirect?id=c3"] :=
  (signAttachmentUrls_partial_lookup threeAttachmentDoc "team"
    twoOfThreeDb okSigner (fun a _ =>
      ⟨"https://signed.example.com/" ++ a.key, rfl, by
        intro hcontr
        have hlen := congrArg String.length hcontr
        rw [String.length_append] at hlen
        have h27 : ("https://signed.example.com/" : String).length = 27 :=
          rfl
        rw [h27] at hlen
        simp at hlen⟩)).2.2

/-! ## The mention id-uniqueness repair pass -/

theorem repairGo_invariant (supply : Nat → String)
    (hinj : ∀ k1 k2, supply k1 = supply k2 → k1 = k2)
    (hne : ∀ k', supply k' ≠ "") :
    ∀ (l : List PassNode) (k : Nat) (seen : List (Option AttrValue)),
      (∀ k', k ≤ k' →
        (some (.str (supply k')) : Option AttrValue) ∉ allIds l ∧
        (some (.str (supply k')) : Option AttrValue) ∉ seen) →
      (∀ n ∈ repairMentionsGo supply k seen l,
        n.typeName = "mention" → jsTruthy n.id = true) ∧
      (mentionIds (repairMentionsGo supply k seen l)).Nodup ∧
      (∀ idv ∈ mentionIds (repairMentionsGo supply k seen l),
        idv ∉ seen) := by
  intro l
  induction l with
  | nil =>
    intro k seen _
    refine ⟨?_, ?_, ?_⟩ <;> simp [repairMentionsGo, mentionIds]
  | cons n rest ih =>
    intro k seen h
    have hIds : allIds (n :: rest) = n.id :: allIds rest := rfl
    by_cases hc : (n.typeName = "mention" &&
        (!(jsTruthy n.id) || seen.contains n.id)) = true
    · rw [repairMentionsGo, if_pos hc]
      have hmention : n.typeName = "mention" := by
        have := (andE hc).1
        simpa using this
      have hrec := ih (k + 1) (some (.str (supply k)) :: seen) ?_
      · obtain ⟨ha, hb, hcmem⟩ := hrec
        refine ⟨?_, ?_, ?_⟩
        · intro x hx hxm
          cases List.mem_cons.mp hx with
          | inl he =>
            subst he
            simp [jsTruthy, AttrValue.truthy, hne k]
          | inr ht => exact ha x ht hxm
        · have hm : mentionIds ({ n with id := some (.str (supply k)) } ::
              repairMentionsGo supply (k + 1)
                (some (.str (supply k)) :: seen) rest) =
            some (.str (supply k)) ::
              mentionIds (repairMentionsGo supply (k + 1)
                (some (.str (supply k)) :: seen) rest) := by
            simp [mentionIds, List.filter_cons, hmention]
          rw [hm]
          refine List.nodup_cons.mpr ⟨?_, hb⟩
          intro hmem
          exact hcmem _ hmem (List.mem_cons_self _ _)
        · intro idv hidv
          have hm : mentionIds ({ n with id := some (.str (supply k)) } ::
              repairMentionsGo supply (k + 1)
                (some (.str (supply k)) :: seen) rest) =
            some (.str (supply k)) ::
              mentionIds (repairMentionsGo supply (k + 1)
                (some (.str (supply k)) :: seen) rest) := by
            simp [mentionIds, List.filter_cons, hmention]
          rw [hm] at hidv
          cases List.mem_cons.mp hidv with
          | inl he =>
            subst he
            exact ((h k (le_refl _)).2 ·)
          | inr ht =>
            intro hs
            exact hcmem _ ht (List.mem_cons_of_mem _ hs)
      · intro k' hk'
        have hk0 : k ≤ k' := Nat.le_of_succ_le hk'
        refine ⟨?_, ?_⟩
        · intro hmem
          exact ((h k' hk0).1 (by rw [hIds]; exact .tail _ hmem))
        · intro hmem
          cases List.mem_cons.mp hmem with
          | inl he =>
            have heq : supply k' = supply k := by
              simpa using he
            have := hinj _ _ heq
            omega
          | inr ht => exact (h k' hk0).2 ht
    · rw [repairMentionsGo, if_neg hc]
      have hrec := ih k (n.id :: seen) ?_
      · obtain ⟨ha, hb, hcmem⟩ := hrec
        have hNotSeen : n.typeName = "mention" →
            jsTruthy n.id = true ∧ n.id ∉ seen := by
          intro hm
          rw [Bool.and_eq_true] at hc
          push_neg at hc
          have := hc (by simpa using hm)
          constructor
          · by_contra hf
            apply this
            simp [Bool.not_eq_true] at hf
            simp [hf]
          · intro hs
            have hcontains : seen.contains n.id = true :=
              List.elem_iff.mpr hs
            exact this (by rw [hcontains]; simp)
        refine ⟨?_, ?_, ?_⟩
        · intro x hx hxm
          cases List.mem_cons.mp hx with
          | inl he => subst he; exact (hNotSeen hxm).1
          | inr ht => exact ha x ht hxm
        · by_cases hm : n.typeName = "mention"
          · have hmi : mentionIds (n :: repairMentionsGo supply k
                (n.id :: seen) rest) =
              n.id :: mentionIds (repairMentionsGo supply k
                (n.id :: seen) rest) := by
              simp [mentionIds, List.filter_cons, hm]
            rw [hmi]
            refine List.nodup_cons.mpr ⟨?_, hb⟩
            intro hmem
            exact hcmem _ hmem (List.mem_cons_self _ _)
          · have hmi : mentionIds (n :: repairMentionsGo supply k
                (n.id :: seen) rest) =
              mentionIds (repairMentionsGo supply k
                (n.id :: seen) rest) := by
              simp [mentionIds, List.filter_cons, hm]
            rw [hmi]
            exact hb
        · intro idv hidv
          by_cases hm : n.typeName = "mention"
          · have hmi : mentionIds (n :: repairMentionsGo supply k
                (n.id :: seen) rest) =
              n.id :: mentionIds (repairMentionsGo supply k
                (n.id :: seen) rest) := by
              simp [mentionIds, List.filter_cons, hm]
            rw [hmi] at hidv
            cases List.mem_cons.mp hidv with
            | inl he => subst he; exact (hNotSeen hm).2
            | inr ht =>
              intro hs
              exact hcmem _ ht (List.mem_cons_of_mem _ hs)
          · have hmi : mentionIds (n :: repairMentionsGo supply k
                (n.id :: seen) rest) =
              mentionIds (repairMentionsGo supply k
                (n.id :: seen) rest) := by
              simp [mentionIds, List.filter_cons, hm]
            rw [hmi] at hidv
            intro hs
            exact hcmem _ hidv (List.mem_cons_of_mem _ hs)
      · intro k' hk'
        refine ⟨?_, ?_⟩
        · intro hmem
          exact ((h k' hk').1 (by rw [hIds]; exact .tail _ hmem))
        · intro hmem
          cases List.mem_cons.mp hmem with
          | inl he =>
            exact (h k' hk').1 (by rw [hIds, he]; exact List.mem_cons_self _ _)
          | inr ht => exact (h k' hk').2 ht

theorem repairGo_preserve (supply : Nat → String) :
    ∀ (pre : List PassNode) (n : PassNode) (post : List PassNode)
      (k : Nat) (seen : List (Option AttrValue)),
      n.typeName = "mention" → jsTruthy n.id = true →
      n.id ∉ seen →
      (∀ k', k ≤ k' → (some (.str (supply k')) : Option AttrValue) ≠ n.id) →
      n.id ∉ allIds pre →
      ∃ pre' post',
        repairMentionsGo supply k seen (pre ++ n :: post) =
          pre' ++ n :: post' ∧ pre'.length = pre.length := by
  intro pre
  induction pre with
  | nil =>
    intro n post k seen hm ht hs _ _
    have hc : (n.typeName = "mention" &&
        (!(jsTruthy n.id) || seen.contains n.id)) = false := by
      rw [hm, ht]
      simp only [decide_True, Bool.true_and, Bool.not_true,
        Bool.false_or]
      simpa using fun hmem => hs (List.elem_iff.mp hmem)
    rw [List.nil_append, repairMentionsGo, hc]
    exact ⟨[], repairMentionsGo supply k (n.id :: seen) post, rfl, rfl⟩
  | cons p pre' ih =>
    intro n post k seen hm ht hs hsup hpre
    have hpne : p.id ≠ n.id := by
      intro he
      apply hpre
      rw [allIds, List.map_cons, he]
      exact List.mem_cons_self _ _
    have hpre' : n.id ∉ allIds pre' := by
      intro hmem
      exact hpre (by rw [allIds, List.map_cons]; exact .tail _ hmem)
    rw [List.cons_append, repairMentionsGo]
    by_cases hc : (p.typeName = "mention" &&
        (!(jsTruthy p.id) || seen.contains p.id)) = true
    · rw [if_pos hc]
      obtain ⟨pre'', post'', heq, hlen⟩ :=
        ih n post (k + 1) (some (.str (supply k)) :: seen) hm ht
          (by
            intro hmem
            cases List.mem_cons.mp hmem with
            | inl he => exact hsup k (le_refl _) he.symm
            | inr hts => exact hs hts)
          (fun k' hk' => hsup k' (Nat.le_of_succ_le hk'))
          hpre'
      rw [heq]
      exact ⟨{ p with id := some (.str (supply k)) } :: pre'', post'',
        rfl, by simp [hlen]⟩
    · rw [if_neg hc]
      obtain ⟨pre'', post'', heq, hlen⟩ :=
        ih n post k (p.id :: seen) hm ht
          (by
            intro hmem
            cases List.mem_cons.mp hmem with
            | inl he => exact hpne he.symm
            | inr hts => exact hs hts)
          hsup hpre'
      rw [heq]
      exact ⟨p :: pre'', post'', rfl, by simp [hlen]⟩

/-- C10: after the mention repair pass, every mention has а truthy id
and no two mentions share an id; a mention whose id was truthy and not
seen earlier in the pass keeps its position with its id unchanged; the
concrete five-node document is repaired as expected. -/
theorem repairMentions_spec (supply : Nat → String) (l : List PassNode)
    (hinj : ∀ k1 k2, supply k1 = supply k2 → k1 = k2)
    (hfresh : ∀ k, (some (.str (supply k)) : Option AttrValue) ∉ allIds l)
    (hne : ∀ k, supply k ≠ "") :
    (∀ n ∈ repairMentions supply l, n.typeName = "mention" →
      jsTruthy n.id = true) ∧
    (mentionIds (repairMentions supply l)).Nodup ∧
    (∀ pre n post, l = pre ++ n :: post → n.typeName = "mention" →
      jsTruthy n.id = true → n.id ∉ allIds pre →
      ∃ pre' post', repairMentions supply l = pre' ++ n :: post' ∧
        pre'.length = pre.length) ∧
    repairMentions uuidSupply repairExampleNodes =
      [ { typeName := "mention", id := some (.str "u") },
        { typeName := "attachment", id := some (.str "x9") },
        { typeName := "mention", id := some (.str "m1") },
        { typeName := "text", id := none },
        { typeName := "mention", id := some (.str "uu") } ] := by
  have hinv := repairGo_invariant supply hinj hne l 0 []
    (fun k' _ => ⟨hfresh k', by simp⟩)
  refine ⟨hinv.1, hinv.2.1, ?_, by decide⟩
  intro pre n post hl hm ht hpre
  subst hl
  exact repairGo_preserve supply pre n post 0 [] hm ht (by simp)
    (fun k' _ => by
      intro he
      exact hfresh k' (by
        rw [he, allIds, List.map_append, List.map_cons]
        exact List.mem_append.mpr (Or.inr (List.mem_cons_self _ _))))
    hpre

theorem repairMentions_spec_witness :
    (mentionIds (repairMentions uuidSupply repairExampleNodes)).Nodup :=
  (repairMentions_spec uuidSupply repairExampleNodes
    (fun k1 k2 h => by
      have := congrArg (fun s : String => s.data.length) h
      simpa [uuidSupply] using this)
    (fun k => by
      intro hmem
      have hdata : (uuidSupply k).data = 'u' :: List.replicate k 'u' := by
        simp [uuidSupply, List.replicate_succ]
      simp only [repairExampleNodes, allIds, List.map_cons, List.map_nil] at hmem
      rcases List.mem_cons.mp hmem with he | hmem
      · simp at he
      rcases List.mem_cons.mp hmem with he | hmem
      · have : (uuidSupply k).data = "x9".data := by
          have := Option.some.inj he
          have := AttrValue.str.inj this
          rw [this]
        rw [hdata] at this
        simp at this
      rcases List.mem_cons.mp hmem with he | hmem
      · have : (uuidSupply k).data = "m1".data := by
          have := Option.some.inj he
          have := AttrValue.str.inj this
          rw [this]
        rw [hdata] at this
        simp at this
      rcases List.mem_cons.mp hmem with he | hmem
      · simp at he
      rcases List.mem_cons.mp hmem with he | hmem
      · have : (uuidSupply k).data = "m1".data := by
          have := Option.some.inj he
          have := AttrValue.str.inj this
          rw [this]
        rw [hdata] at this
        simp at this
      · simp at hmem)
    (fun k => by
      intro h
      have := congrArg String.data h
      simp [uuidSupply, List.replicate_succ] at this)).2.1

/-! ### C9: attachment title and size inference (`Attachment.parseMarkdown`) -/

theorem isDigit_char_ne (c x : Char) (h : c.isDigit = true)
    (hx : x.isDigit = false) : ¬ c = x := by
  intro he
  rw [he, hx] at h
  cases h

theorem digitsRun_all (d : List Char) (hd1 : d ≠ [])
    (hd2 : d.all Char.isDigit = true) :
    digitsRun d = some (digitsToNat d) := by
  have hne : d.isEmpty = false := by
    cases d with
    | nil => exact absurd rfl hd1
    | cons a r => rfl
  rw [digitsRun, hne, hd2]
  rfl

theorem digitsRun_space_mem (l : List Char) (h : ' ' ∈ l) :
    digitsRun l = none := by
  have hall : l.all Char.isDigit = false := by
    by_contra hb
    rw [Bool.not_eq_false] at hb
    have hd : (' ' : Char).isDigit = true := List.all_eq_true.mp hb ' ' h
    exact absurd hd (by decide)
  rw [digitsRun, hall]
  simp

theorem pdfTail_digits (l : List Char) (h : l.all Char.isDigit = true) :
    pdfTail l = none := by
  rcases l with _ | ⟨a, _ | ⟨b, _ | ⟨c, _ | ⟨e, rest⟩⟩⟩⟩
  · rfl
  · rfl
  · rfl
  · rfl
  · have ha : a.isDigit = true := by
      have := List.all_eq_true.mp h a (by simp)
      simpa using this
    rw [pdfTail]
    split
    · rename_i hg
      rcases hg with ⟨hp, -, -, -⟩
      rcases hp with h1 | h1 <;>
        exact absurd h1 (isDigit_char_ne a _ ha (by decide))
    · rfl

theorem spacesThenCont_digits_pdf (l : List Char)
    (h : l.all Char.isDigit = true) :
    spacesThenCont pdfTail l = none := by
  cases l with
  | nil => rfl
  | cons c r =>
    have hc : c.isDigit = true := by
      have := List.all_eq_true.mp h c (by simp)
      simpa using this
    rw [spacesThenCont, if_neg (isDigit_char_ne c ' ' hc (by decide))]
    exact pdfTail_digits _ h

theorem spacesThenCont_digits_run (d : List Char) (hd1 : d ≠ [])
    (hd2 : d.all Char.isDigit = true) :
    spacesThenCont digitsRun d = some (digitsToNat d) := by
  cases d with
  | nil => exact absurd rfl hd1
  | cons c r =>
    have hc : c.isDigit = true := by
      have := List.all_eq_true.mp hd2 c (by simp)
      simpa using this
    rw [spacesThenCont, if_neg (isDigit_char_ne c ' ' hc (by decide))]
    exact digitsRun_all _ hd1 hd2

theorem jsPdfMatch_digits (l : List Char) (h : l.all Char.isDigit = true) :
    jsPdfMatch l = none := by
  induction l with
  | nil => rfl
  | cons c r ih =>
    have hc : c.isDigit = true := by
      have := List.all_eq_true.mp h c (by simp)
      simpa using this
    have hr : r.all Char.isDigit = true := by
      rw [List.all_cons] at h
      exact (andE h).2
    simp only [jsPdfMatch, spacesThen,
      if_neg (isDigit_char_ne c ' ' hc (by decide)),
      if_neg (isDigit_char_ne c '\n' hc (by decide)), ih hr]

theorem spacesThenCont_digitsRun_sep (u w : List Char)
    (h : u.all (fun c => c = ' ') = false) :
    spacesThenCont digitsRun (u ++ ' ' :: w) = none := by
  induction u with
  | nil => simp at h
  | cons x u' ih =>
    by_cases hx : x = ' '
    · subst hx
      rw [List.cons_append, spacesThenCont, if_pos rfl]
      exact ih (by simpa using h)
    · rw [List.cons_append, spacesThenCont, if_neg hx]
      exact digitsRun_space_mem _ (by simp)

theorem spacesThenCont_pdfTail_sep (u w : List Char)
    (h : u.all (fun c => c = ' ') = false) :
    spacesThenCont pdfTail (u ++ ' ' :: w) = none := by
  induction u with
  | nil => simp at h
  | cons x u' ih =>
    by_cases hx : x = ' '
    · subst hx
      rw [List.cons_append, spacesThenCont, if_pos rfl]
      exact ih (by simpa using h)
    · rw [List.cons_append, spacesThenCont, if_neg hx]
      rcases u' with _ | ⟨a, _ | ⟨b, _ | ⟨cc, u4⟩⟩⟩
      · rcases w with _ | ⟨w1, _ | ⟨w2, wr⟩⟩
        · rfl
        · rfl
        · show pdfTail (x :: ' ' :: w1 :: w2 :: wr) = none
          rw [pdfTail]
          split
          · rename_i hg
            rcases hg with ⟨-, hd, -, -⟩
            rcases hd with h1 | h1 <;> exact absurd h1 (by decide)
          · rfl
      · rcases w with _ | ⟨w1, wr⟩
        · rfl
        · show pdfTail (x :: a :: ' ' :: w1 :: wr) = none
          rw [pdfTail]
          split
          · rename_i hg
            rcases hg with ⟨-, -, hf, -⟩
            rcases hf with h1 | h1 <;> exact absurd h1 (by decide)
          · rfl
      · show pdfTail (x :: a :: b :: ' ' :: w) = none
        rw [pdfTail]
        split
        · rename_i hg
          rcases hg with ⟨-, -, -, hcolon⟩
          exact absurd hcolon (by decide)
        · rfl
      · show pdfTail (x :: a :: b :: cc :: (u4 ++ ' ' :: w)) = none
        rw [pdfTail]
        split
        · exact digitsRun_space_mem _ (by simp)
        · rfl

theorem getLast_cons_ne (c : Char) (l : List Char) (h : l ≠ []) :
    (c :: l).getLast? = l.getLast? := by
  cases l with
  | nil => exact absurd rfl h
  | cons a r => simp [List.getLast?_cons_cons]

theorem not_all_space_of_getLast (l : List Char) (h0 : l ≠ [])
    (h : l.getLast? ≠ some ' ') :
    l.all (fun c => c = ' ') = false := by
  rcases hg : l.getLast? with _ | x
  · exact absurd (List.getLast?_eq_none_iff.mp hg) h0
  · have hx : x ≠ ' ' := fun he => h (he ▸ hg)
    by_contra hb
    rw [Bool.not_eq_false] at hb
    have hmem := List.mem_of_mem_getLast? hg
    have := List.all_eq_true.mp hb x hmem
    exact hx (by simpa using this)

theorem trimChars_fixed_getLast (l : List Char) (h : trimChars l = l) :
    l.getLast? ≠ some ' ' := by
  intro hlast
  have hl : l ≠ [] := by
    intro he
    rw [he] at hlast
    simp at hlast
  have h1 : l.dropWhile isSpaceChar ≠ [] := by
    intro he
    rw [trimChars, he] at h
    simp at h
    exact hl h
  have hsuf : l.dropWhile isSpaceChar <:+ l := List.dropWhile_suffix _
  have hlast1 : (l.dropWhile isSpaceChar).getLast? = some ' ' := by
    obtain ⟨pre, hpre⟩ := hsuf
    rw [← hpre] at hlast
    rwa [List.getLast?_append_of_ne_nil _ h1] at hlast
  have hh : (l.dropWhile isSpaceChar).reverse.head? = some ' ' := by
    rw [List.head?_reverse]
    exact hlast1
  obtain ⟨rest, hrest⟩ : ∃ rest,
      (l.dropWhile isSpaceChar).reverse = ' ' :: rest := by
    rcases hr : (l.dropWhile isSpaceChar).reverse with _ | ⟨a, r⟩
    · rw [hr] at hh
      cases hh
    · rw [hr] at hh
      simp at hh
      exact ⟨r, by rw [hh]⟩
  have hlen : (trimChars l).length < l.length := by
    rw [trimChars, hrest]
    have hdw : (' ' :: rest).dropWhile isSpaceChar
        = rest.dropWhile isSpaceChar := by
      rw [List.dropWhile_cons, if_pos (by decide)]
    rw [hdw, List.length_reverse]
    calc (rest.dropWhile isSpaceChar).length
        ≤ rest.length := (List.dropWhile_sublist _).length_le
      _ < (' ' :: rest).length := by simp
      _ = (l.dropWhile isSpaceChar).reverse.length := by rw [hrest]
      _ = (l.dropWhile isSpaceChar).length := by simp
      _ ≤ l.length := hsuf.sublist.length_le
  rw [h] at hlen
  exact lt_irrefl _ hlen

theorem jsGenericMatch_eq (t d : List Char) (hd1 : d ≠ [])
    (hd2 : d.all Char.isDigit = true) :
    '\n' ∉ t → t.getLast? ≠ some ' ' →
    jsGenericMatch (t ++ ' ' :: d) = some (t, digitsToNat d) := by
  induction t with
  | nil =>
    intro _ _
    simp only [List.nil_append, List.append_eq, if_true, jsGenericMatch, spacesThen,
      if_pos (rfl : (' ' : Char) = ' '),
      spacesThenCont_digits_run d hd1 hd2]
  | cons c t' ih =>
    intro hnl hlast
    have hnl' : '\n' ∉ t' := fun hm => hnl (List.mem_cons_of_mem _ hm)
    by_cases hc : c = ' '
    · subst hc
      have ht' : t' ≠ [] := by
        intro he
        subst he
        simp at hlast
      have hlast' : t'.getLast? ≠ some ' ' := by
        rwa [getLast_cons_ne _ _ ht'] at hlast
      have hna : t'.all (fun x => x = ' ') = false :=
        not_all_space_of_getLast t' ht' hlast'
      simp only [List.cons_append, List.append_eq, if_true, jsGenericMatch, spacesThen,
        if_pos (rfl : (' ' : Char) = ' '),
        spacesThenCont_digitsRun_sep t' d hna,
        if_neg (by decide : ¬ (' ' : Char) = '\n'),
        ih hnl' hlast']
    · have hlast' : t'.getLast? ≠ some ' ' := by
        rcases he : t' with _ | ⟨a, r⟩
        · simp
        · rw [← he]
          rwa [getLast_cons_ne c t' (by rw [he]; simp)] at hlast
      have hcn : ¬ c = '\n' := fun he2 => hnl (he2 ▸ List.mem_cons_self c t')
      simp only [List.cons_append, List.append_eq, if_true, jsGenericMatch, spacesThen, if_neg hc,
        if_neg hcn, ih hnl' hlast']

theorem jsPdfMatch_eq (t d : List Char) (hd1 : d ≠ [])
    (hd2 : d.all Char.isDigit = true) :
    '\n' ∉ t → t.getLast? ≠ some ' ' →
    jsPdfMatch (t ++ ' ' :: 'p' :: 'd' :: 'f' :: ':' :: d)
      = some (t, digitsToNat d) := by
  induction t with
  | nil =>
    intro _ _
    have hp : spacesThenCont pdfTail ('p' :: 'd' :: 'f' :: ':' :: d)
        = some (digitsToNat d) := by
      rw [spacesThenCont, if_neg (by decide : ¬ ('p' : Char) = ' '), pdfTail,
        if_pos (by decide)]
      exact digitsRun_all d hd1 hd2
    simp only [List.nil_append, List.append_eq, if_true, jsPdfMatch, spacesThen,
      if_pos (rfl : (' ' : Char) = ' '), hp]
  | cons c t' ih =>
    intro hnl hlast
    have hnl' : '\n' ∉ t' := fun hm => hnl (List.mem_cons_of_mem _ hm)
    by_cases hc : c = ' '
    · subst hc
      have ht' : t' ≠ [] := by
        intro he
        subst he
        simp at hlast
      have hlast' : t'.getLast? ≠ some ' ' := by
        rwa [getLast_cons_ne _ _ ht'] at hlast
      have hna : t'.all (fun x => x = ' ') = false :=
        not_all_space_of_getLast t' ht' hlast'
      simp only [List.cons_append, List.append_eq, if_true, jsPdfMatch, spacesThen,
        if_pos (rfl : (' ' : Char) = ' '),
        spacesThenCont_pdfTail_sep t' _ hna,
        if_neg (by decide : ¬ (' ' : Char) = '\n'),
        ih hnl' hlast']
    · have hlast' : t'.getLast? ≠ some ' ' := by
        rcases he : t' with _ | ⟨a, r⟩
        · simp
        · rw [← he]
          rwa [getLast_cons_ne c t' (by rw [he]; simp)] at hlast
      have hcn : ¬ c = '\n' := fun he2 => hnl (he2 ▸ List.mem_cons_self c t')
      simp only [List.cons_append, List.append_eq, if_true, jsPdfMatch, spacesThen, if_neg hc,
        if_neg hcn, ih hnl' hlast']

theorem jsPdfMatch_generic_none (t d : List Char)
    (hd2 : d.all Char.isDigit = true) :
    t.getLast? ≠ some ' ' →
    jsPdfMatch (t ++ ' ' :: d) = none := by
  induction t with
  | nil =>
    intro _
    simp only [List.nil_append, List.append_eq, if_true, jsPdfMatch, spacesThen,
      if_pos (rfl : (' ' : Char) = ' '),
      spacesThenCont_digits_pdf d hd2,
      if_neg (by decide : ¬ (' ' : Char) = '\n'),
      jsPdfMatch_digits d hd2]
  | cons c t' ih =>
    intro hlast
    by_cases hc : c = ' '
    · subst hc
      have ht' : t' ≠ [] := by
        intro he
        subst he
        simp at hlast
      have hlast' : t'.getLast? ≠ some ' ' := by
        rwa [getLast_cons_ne _ _ ht'] at hlast
      have hna : t'.all (fun x => x = ' ') = false :=
        not_all_space_of_getLast t' ht' hlast'
      simp only [List.cons_append, List.append_eq, if_true, jsPdfMatch, spacesThen,
        if_pos (rfl : (' ' : Char) = ' '),
        spacesThenCont_pdfTail_sep t' d hna,
        if_neg (by decide : ¬ (' ' : Char) = '\n'),
        ih hlast']
    · have hlast' : t'.getLast? ≠ some ' ' := by
        rcases he : t' with _ | ⟨a, r⟩
        · simp
        · rw [← he]
          rwa [getLast_cons_ne c t' (by rw [he]; simp)] at hlast
      by_cases hcn : c = '\n'
      · simp only [List.cons_append, List.append_eq, if_true, jsPdfMatch, spacesThen, if_neg hc,
          if_pos hcn]
      · simp only [List.cons_append, List.append_eq, if_true, jsPdfMatch, spacesThen, if_neg hc,
          if_neg hcn, ih hlast']

theorem attachmentTitleOf_nonempty (href : Option String) (t : List Char)
    (h : t ≠ []) : attachmentTitleOf href t = t := by
  have hie : t.isEmpty = false := by
    cases t with
    | nil => exact absurd rfl h
    | cons a r => rfl
  rw [attachmentTitleOf, hie]
  simp

/-- C9: attachment title inference when parsing Markdown.  For a link
token whose text is `"<title> pdf:<size>"` (resp. `"<title> <size>"`)
with a trim-stable, nonempty, newline-free title and a nonempty digit
run, `getAttrs` returns exactly that title with the numeric size; the
token `[report.pdf](https://x/attachments.redirect?id=abc)` matching
neither convention keeps title `"report.pdf"`; an empty link text falls
back to the href's URL-decoded last path segment; and with no usable
href the title defaults to `"Attachment"`. -/
theorem attachment_title_inference
    (title : String) (d : List Char) (href : Option String)
    (htr : trimChars title.data = title.data)
    (hne : title ≠ "")
    (hnl : '\n' ∉ title.data)
    (hd1 : d ≠ []) (hd2 : d.all Char.isDigit = true) :
    attachmentGetAttrs
        ⟨href, String.mk (title.data ++ ' ' :: 'p' :: 'd' :: 'f' :: ':' :: d)⟩
      = ⟨href, title, digitsToNat d⟩ ∧
    attachmentGetAttrs ⟨href, String.mk (title.data ++ ' ' :: d)⟩
      = ⟨href, title, digitsToNat d⟩ ∧
    attachmentGetAttrs
        ⟨some "https://x/attachments.redirect?id=abc", "report.pdf"⟩
      = ⟨some "https://x/attachments.redirect?id=abc", "report.pdf", 0⟩ ∧
    attachmentGetAttrs
        ⟨some "https://s3.example.com/files/My%20Report.pdf?sig=1", ""⟩
      = ⟨some "https://s3.example.com/files/My%20Report.pdf?sig=1",
          "My Report.pdf", 0⟩ ∧
    attachmentGetAttrs ⟨none, ""⟩ = ⟨none, "Attachment", 0⟩ := by
  have hlast := trimChars_fixed_getLast _ htr
  have hdne : title.data ≠ [] := by
    intro he
    apply hne
    cases title with
    | mk dta =>
      simp only at he
      rw [he]
  refine ⟨?_, ?_, by decide, by decide, by decide⟩
  · have hm := jsPdfMatch_eq title.data d hd1 hd2 hnl hlast
    simp only [attachmentGetAttrs, hm, htr,
      attachmentTitleOf_nonempty href title.data hdne]
  · have hn := jsPdfMatch_generic_none title.data d hd2 hlast
    have hm := jsGenericMatch_eq title.data d hd1 hd2 hnl hlast
    simp only [attachmentGetAttrs, hn, hm, htr,
      attachmentTitleOf_nonempty href title.data hdne]

theorem attachment_title_inference_witness :
    ("2048".data ≠ []) ∧
    attachmentGetAttrs
        ⟨some "https://e/a", String.mk ("report".data ++ ' ' :: "2048".data)⟩
      = ⟨some "https://e/a", "report", digitsToNat "2048".data⟩ :=
  ⟨by decide,
    (attachment_title_inference "report" "2048".data (some "https://e/a")
      (by decide) (by decide) (by decide) (by decide) (by decide)).2.1⟩

/-! ### C1: the Markdown round trip -/

theorem splitBy_ne_nil (p : α → Bool) (l : List α) : splitBy p l ≠ [] := by
  cases l with
  | nil => simp [splitBy]
  | cons a rest =>
    rw [splitBy]
    rcases h : splitBy p rest with _ | ⟨g, gs⟩
    · simp
    · by_cases hp : p a = true
      · simp [hp]
      · simp [hp]

theorem splitBy_cons_sep (p : α → Bool) (a : α) (l : List α)
    (h : p a = true) : splitBy p (a :: l) = [] :: splitBy p l := by
  rw [splitBy]
  rcases hs : splitBy p l with _ | ⟨g, gs⟩
  · exact absurd hs (splitBy_ne_nil p l)
  · simp [h]

theorem splitBy_no_sep (p : α → Bool) (l : List α)
    (h : ∀ x ∈ l, p x = false) : splitBy p l = [l] := by
  induction l with
  | nil => rfl
  | cons a rest ih =>
    rw [splitBy, ih (fun x hx => h x (List.mem_cons_of_mem a hx))]
    simp [h a (List.mem_cons_self a rest)]

theorem splitBy_append_sep (p : α → Bool) (a : List α) (s : α)
    (t : List α) (ha : ∀ x ∈ a, p x = false) (hs : p s = true) :
    splitBy p (a ++ s :: t) = a :: splitBy p t := by
  induction a with
  | nil =>
    rw [List.nil_append]
    exact splitBy_cons_sep p s t hs
  | cons x a' ih =>
    rw [List.cons_append, splitBy,
      ih (fun y hy => ha y (List.mem_cons_of_mem x hy))]
    simp [ha x (List.mem_cons_self x a')]

theorem joinSep_cons_head (sep : List α) (a : α) (g : List α)
    (gs : List (List α)) :
    joinSep sep ((a :: g) :: gs) = a :: joinSep sep (g :: gs) := by
  cases gs with
  | nil => rfl
  | cons g2 gs' => rfl

theorem joinSep_splitBy (p : α → Bool) (s : α) (l : List α)
    (hp : ∀ x, p x = true → x = s) :
    joinSep [s] (splitBy p l) = l := by
  induction l with
  | nil => rfl
  | cons a rest ih =>
    rw [splitBy]
    rcases hs : splitBy p rest with _ | ⟨g, gs⟩
    · exact absurd hs (splitBy_ne_nil p rest)
    · rw [hs] at ih
      by_cases hpa : p a = true
      · have ha : a = s := hp a hpa
        subst ha
        simp [hpa, joinSep, ih]
      · simp [hpa, joinSep_cons_head, ih]

theorem splitBy_joinSep (p : α → Bool) (s : α)
    (parts : List (List α)) (hs : p s = true)
    (hparts : ∀ part ∈ parts, ∀ x ∈ part, p x = false)
    (hne : parts ≠ []) :
    splitBy p (joinSep [s] parts) = parts := by
  induction parts with
  | nil => exact absurd rfl hne
  | cons g gs ih =>
    cases gs with
    | nil =>
      rw [joinSep]
      exact splitBy_no_sep p g (hparts g (List.mem_cons_self g []))
    | cons g2 gs' =>
      have hjoin : joinSep [s] (g :: g2 :: gs')
          = g ++ s :: joinSep [s] (g2 :: gs') := by
        simp [joinSep]
      rw [hjoin]
      rw [splitBy_append_sep p g s (joinSep [s] (g2 :: gs'))
        (hparts g (List.mem_cons_self g (g2 :: gs'))) hs]
      rw [ih (fun part hp2 => hparts part (List.mem_cons_of_mem g hp2))
        (List.cons_ne_nil g2 gs')]

theorem takeWhile_append_stop (p : α → Bool) (a : List α) (c : α)
    (b : List α) (ha : ∀ x ∈ a, p x = true) (hc : p c = false) :
    (a ++ c :: b).takeWhile p = a := by
  induction a with
  | nil =>
    rw [List.nil_append, List.takeWhile_cons, hc]
    simp
  | cons x a' ih =>
    rw [List.cons_append, List.takeWhile_cons,
      ha x (List.mem_cons_self x a'),
      ih (fun y hy => ha y (List.mem_cons_of_mem x hy))]
    simp

theorem dropWhile_append_stop (p : α → Bool) (a : List α) (c : α)
    (b : List α) (ha : ∀ x ∈ a, p x = true) (hc : p c = false) :
    (a ++ c :: b).dropWhile p = c :: b := by
  induction a with
  | nil =>
    rw [List.nil_append, List.dropWhile_cons, hc]
    simp
  | cons x a' ih =>
    rw [List.cons_append, List.dropWhile_cons,
      ha x (List.mem_cons_self x a'), if_pos rfl]
    exact ih (fun y hy => ha y (List.mem_cons_of_mem x hy))

theorem isPrefixOf_append_self [DecidableEq α] (pat b : List α) :
    pat.isPrefixOf (pat ++ b) = true := by
  induction pat with
  | nil => cases b <;> rfl
  | cons x xs ih => simp [List.isPrefixOf, ih]

theorem splitFirstSub_pair [DecidableEq α] (a b : List α) (x y : α)
    (h : x ∉ a) :
    splitFirstSub (a ++ x :: y :: b) [x, y] = some (a, b) := by
  induction a with
  | nil =>
    rw [List.nil_append, splitFirstSub,
      if_pos (by simp [isPrefixOf_append_self [x, y] b])]
    simp
  | cons c a' ih =>
    have hxc : ¬ [x, y].isPrefixOf (c :: (a' ++ x :: y :: b)) = true := by
      rw [List.isPrefixOf]
      have : (x == c) = false :=
        beq_eq_false_iff_ne.mpr (fun he => h (he ▸ List.mem_cons_self c a'))
      simp [this]
    rw [List.cons_append, splitFirstSub, if_neg hxc,
      ih (fun hm => h (List.mem_cons_of_mem c hm))]

theorem containsSub_of_isPrefixOf [DecidableEq α] (l pat : List α)
    (h : pat.isPrefixOf l = true) : containsSub l pat = true := by
  cases l with
  | nil =>
    cases pat with
    | nil => rfl
    | cons p ps => cases h
  | cons c rest =>
    rw [containsSub, h]
    simp

theorem containsSub_cons_false [DecidableEq α] (c : α) (l pat : List α)
    (h : containsSub (c :: l) pat = false) : containsSub l pat = false := by
  rw [containsSub] at h
  exact (Bool.or_eq_false_iff.mp h).2

theorem digitChar_isDigit (n : Nat) (h : n < 10) :
    (digitChar n).isDigit = true := by
  interval_cases n <;> decide

theorem digitChar_val (n : Nat) (h : n < 10) :
    (digitChar n).toNat - '0'.toNat = n := by
  interval_cases n <;> decide

theorem natDigitsGo_acc (fuel : Nat) : ∀ n acc,
    natDigitsGo fuel n acc = natDigitsGo fuel n [] ++ acc := by
  induction fuel with
  | zero =>
    intro n acc
    rfl
  | succ f ih =>
    intro n acc
    simp only [natDigitsGo]
    by_cases h : n < 10
    · simp [h]
    · rw [if_neg h, if_neg h, ih (n / 10) (digitChar (n % 10) :: acc),
        ih (n / 10) [digitChar (n % 10)]]
      simp

theorem natDigitsGo_spec : ∀ fuel n, n < fuel →
    natDigitsGo fuel n [] ≠ [] ∧
    (natDigitsGo fuel n []).all Char.isDigit = true ∧
    digitsToNat (natDigitsGo fuel n []) = n := by
  intro fuel
  induction fuel with
  | zero =>
    intro n h
    exact absurd h (Nat.not_lt_zero n)
  | succ f ih =>
    intro n h
    by_cases h10 : n < 10
    · rw [natDigitsGo, if_pos h10]
      refine ⟨by simp, by simp [digitChar_isDigit n h10], ?_⟩
      show digitsToNat [digitChar n] = n
      have hv := digitChar_val n h10
      rw [digitsToNat]
      simp only [List.foldl]
      omega
    · rw [natDigitsGo, if_neg h10,
        natDigitsGo_acc f (n / 10) [digitChar (n % 10)]]
      obtain ⟨hne, hall, hval⟩ := ih (n / 10) (by omega)
      refine ⟨by simp, ?_, ?_⟩
      · rw [List.all_append, hall]
        simp [digitChar_isDigit (n % 10) (by omega)]
      · have hsplit : digitsToNat
            (natDigitsGo f (n / 10) [] ++ [digitChar (n % 10)])
            = digitsToNat (natDigitsGo f (n / 10) []) * 10 +
              ((digitChar (n % 10)).toNat - '0'.toNat) := by
          rw [digitsToNat, digitsToNat, List.foldl_append]
          rfl
        rw [hsplit, hval, digitChar_val (n % 10) (by omega)]
        omega

theorem natDigits_spec (n : Nat) :
    natDigits n ≠ [] ∧ (natDigits n).all Char.isDigit = true ∧
    digitsToNat (natDigits n) = n :=
  natDigitsGo_spec (n + 1) n (by omega)

theorem all_digits_not_mem (l : List Char) (c : Char)
    (hall : l.all Char.isDigit = true) (hc : c.isDigit = false) :
    c ∉ l := by
  intro hm
  have := List.all_eq_true.mp hall c hm
  rw [hc] at this
  cases this

theorem parseSeg_eq (stop : Char) (a b : List Char)
    (ha : ∀ x ∈ a, ¬ x = stop) :
    parseSeg stop (a ++ stop :: b) = some (a, b) := by
  have h1 : ∀ x ∈ a, (fun c => decide (c ≠ stop)) x = true := by
    intro x hx
    simp [ha x hx]
  have hd := dropWhile_append_stop (fun c => decide (c ≠ stop)) a stop b h1
    (by simp)
  have ht := takeWhile_append_stop (fun c => decide (c ≠ stop)) a stop b h1
    (by simp)
  rw [parseSeg, hd, ht]
  simp

theorem parseMentionAt_eq (label id typ modelId : String) (r : List Char)
    (hl : ']' ∉ label.data) (hi : '/' ∉ id.data) (ht : '/' ∉ typ.data)
    (hm : ')' ∉ modelId.data) :
    parseMentionAt (label.data ++ ']' :: '(' :: ("mention://".data ++
        (id.data ++ '/' :: (typ.data ++ '/' :: (modelId.data ++ ')' :: r)))))
      = some (.mentionI id typ modelId label, r) := by
  have e1 : "](".data = [']', '('] := rfl
  have hsi : ∀ x ∈ id.data, ¬ x = '/' := fun x hx he => hi (he ▸ hx)
  have hst : ∀ x ∈ typ.data, ¬ x = '/' := fun x hx he => ht (he ▸ hx)
  have hsm : ∀ x ∈ modelId.data, ¬ x = ')' := fun x hx he => hm (he ▸ hx)
  simp only [parseMentionAt, e1, splitFirstSub_pair label.data _ ']' '(' hl,
    isPrefixOf_append_self, if_pos, List.drop_left,
    parseSeg_eq '/' id.data _ hsi, parseSeg_eq '/' typ.data _ hst,
    parseSeg_eq ')' modelId.data _ hsm]

theorem findMentionSplit_append (a : List Char) (m : MInline)
    (c after : List Char)
    (hna : containsSub a "@[".data = false)
    (hparse : parseMentionAt c = some (m, after)) :
    findMentionSplit (a ++ '@' :: '[' :: c) = some (a, m, after) := by
  induction a with
  | nil =>
    rw [List.nil_append, findMentionSplit]
    have hcond : '@' = '@' ∧ ('[' :: c).headI = '[' ∧
        (parseMentionAt (('[' :: c).drop 1)).isSome := by
      refine ⟨rfl, rfl, ?_⟩
      show (parseMentionAt c).isSome
      rw [hparse]
      rfl
    rw [if_pos hcond]
    simp [hparse]
  | cons x a' ih =>
    rw [List.cons_append, findMentionSplit]
    have hcond : ¬(x = '@' ∧ (a' ++ '@' :: '[' :: c).headI = '[' ∧
        (parseMentionAt ((a' ++ '@' :: '[' :: c).drop 1)).isSome) := by
      rintro ⟨hx, hh, -⟩
      subst hx
      rcases a' with _ | ⟨y, a''⟩
      · simp at hh
      · simp only [List.cons_append, List.headI] at hh
        subst hh
        have hpre : ("@[".data).isPrefixOf ('@' :: '[' :: a'') = true := by
          simp [List.isPrefixOf]
        exact absurd (containsSub_of_isPrefixOf _ _ hpre) (by simp [hna])
    rw [if_neg hcond, ih (containsSub_cons_false x a' _ hna)]

theorem findMentionSplit_none (l : List Char)
    (h : containsSub l "@[".data = false) : findMentionSplit l = none := by
  induction l with
  | nil => rfl
  | cons c rest ih =>
    rw [findMentionSplit]
    have hcond : ¬(c = '@' ∧ rest.headI = '[' ∧
        (parseMentionAt (rest.drop 1)).isSome) := by
      rintro ⟨hc, hh, -⟩
      subst hc
      rcases rest with _ | ⟨y, r'⟩
      · exact absurd hh (by decide)
      · simp only [List.headI] at hh
        subst hh
        have hpre : ("@[".data).isPrefixOf ('@' :: '[' :: r') = true := by
          simp [List.isPrefixOf]
        exact absurd (containsSub_of_isPrefixOf _ _ hpre) (by simp [h])
    rw [if_neg hcond, ih (containsSub_cons_false c rest _ h)]

theorem serializeInlines_cons (i : MInline) (rest : List MInline) :
    serializeInlines (i :: rest)
      = serializeInline i ++ serializeInlines rest := by
  simp [serializeInlines]

theorem mention_serial_append (id typ modelId label : String)
    (r : List Char) :
    serializeInline (.mentionI id typ modelId label) ++ r
      = '@' :: '[' :: (label.data ++ ']' :: '(' :: ("mention://".data ++
          (id.data ++ '/' :: (typ.data ++ '/' ::
            (modelId.data ++ ')' :: r))))) := by
  simp [serializeInline]

theorem findMentionSplit_at_start (m : MInline) (c after : List Char)
    (hparse : parseMentionAt c = some (m, after)) :
    findMentionSplit ('@' :: '[' :: c) = some ([], m, after) := by
  have h := findMentionSplit_append [] m c after (by decide) hparse
  rwa [List.nil_append] at h

theorem wfInlines_head (i : MInline) (rest : List MInline)
    (h : wfInlines (i :: rest) = true) : wfInline i = true := by
  cases rest with
  | nil => exact h
  | cons j r => exact (andE (andE h).1).1

theorem wfInlines_rest (i : MInline) (rest : List MInline)
    (h : wfInlines (i :: rest) = true) : wfInlines rest = true := by
  cases rest with
  | nil => rfl
  | cons j r => exact (andE h).2

theorem wfInlines_not_adjacent (s t : String) (rest : List MInline)
    (h : wfInlines (.textI s :: .textI t :: rest) = true) : False := by
  have h2 := (andE (andE h).1).2
  simp at h2

theorem wfText_ne_nil (s : String) (h : wfText s = true) :
    s.data ≠ [] := by
  have h1 := (andE (andE h).1).1
  intro he
  rw [he] at h1
  simp at h1

theorem wfText_no_newline (s : String) (h : wfText s = true) :
    '\n' ∉ s.data := by
  have h2 := (andE (andE h).1).2
  intro hm
  simp [hm] at h2

theorem wfText_no_mention (s : String) (h : wfText s = true) :
    containsSub s.data "@[".data = false := by
  have h3 := (andE h).2
  simpa using h3

theorem not_mem_of_not_contains (l : List Char) (c : Char)
    (h : (!l.contains c) = true) : c ∉ l := by
  intro hm
  simp [hm] at h

theorem wfMention_parts (id typ modelId label : String)
    (h : wfMention id typ modelId label = true) :
    '/' ∉ id.data ∧ '/' ∉ typ.data ∧ ')' ∉ modelId.data ∧
      ']' ∉ label.data := by
  rw [wfMention] at h
  simp only [Bool.and_eq_true] at h
  obtain ⟨⟨⟨⟨⟨⟨⟨h1, h2⟩, h3⟩, h4⟩, h5⟩, h6⟩, h7⟩, h8⟩ := h
  exact ⟨not_mem_of_not_contains _ _ h1, not_mem_of_not_contains _ _ h3,
    not_mem_of_not_contains _ _ h5, not_mem_of_not_contains _ _ h7⟩

theorem serializeInline_length_pos (i : MInline)
    (h : wfInline i = true) : 1 ≤ (serializeInline i).length := by
  cases i with
  | textI s =>
    have hne := wfText_ne_nil s h
    cases hs : s.data with
    | nil => exact absurd hs hne
    | cons c cs => simp [serializeInline, hs]
  | mentionI id ty mo la => simp [serializeInline]

theorem parseInlinesGo_serial : ∀ fuel content,
    wfInlines content = true →
    (serializeInlines content).length ≤ fuel →
    parseInlinesGo fuel (serializeInlines content) = content := by
  intro fuel
  induction fuel with
  | zero =>
    intro content hwf hlen
    cases content with
    | nil => rfl
    | cons i rest =>
      exfalso
      rw [serializeInlines_cons, List.length_append] at hlen
      have hi := serializeInline_length_pos i (wfInlines_head _ _ hwf)
      omega
  | succ f ih =>
    intro content hwf hlen
    cases content with
    | nil => rfl
    | cons i rest =>
      cases i with
      | textI s =>
        have hwfs := wfInlines_head _ _ hwf
        have hne := wfText_ne_nil s hwfs
        have hnm := wfText_no_mention s hwfs
        have hie : s.data.isEmpty = false := by
          cases hs : s.data with
          | nil => exact absurd hs hne
          | cons a l => rfl
        cases rest with
        | nil =>
          rw [serializeInlines_cons,
            show serializeInlines [] = [] from rfl, List.append_nil,
            show serializeInline (.textI s) = s.data from rfl,
            parseInlinesGo, findMentionSplit_none s.data hnm]
          simp [hie]
        | cons j rest' =>
          cases j with
          | textI t => exact (wfInlines_not_adjacent s t rest' hwf).elim
          | mentionI id ty mo la =>
            have hwfm := wfInlines_head _ _ (wfInlines_rest _ _ hwf)
            obtain ⟨hi', ht', hm', hl'⟩ := wfMention_parts id ty mo la hwfm
            have hwfr' : wfInlines rest' = true :=
              wfInlines_rest _ _ (wfInlines_rest _ _ hwf)
            have hlen' : (serializeInlines rest').length ≤ f := by
              rw [serializeInlines_cons, serializeInlines_cons,
                List.length_append, List.length_append] at hlen
              have h1 := serializeInline_length_pos (.textI s) hwfs
              omega
            rw [serializeInlines_cons, serializeInlines_cons,
              show serializeInline (.textI s) = s.data from rfl,
              mention_serial_append, parseInlinesGo,
              findMentionSplit_append s.data _ _ _ hnm
                (parseMentionAt_eq la id ty mo _ hl' hi' ht' hm')]
            simp [hie, ih rest' hwfr' hlen']
      | mentionI id ty mo la =>
        have hwfm := wfInlines_head _ _ hwf
        obtain ⟨hi', ht', hm', hl'⟩ := wfMention_parts id ty mo la hwfm
        have hwfr : wfInlines rest = true := wfInlines_rest _ _ hwf
        have hlen' : (serializeInlines rest).length ≤ f := by
          rw [serializeInlines_cons, List.length_append] at hlen
          have h1 := serializeInline_length_pos (.mentionI id ty mo la) hwfm
          omega
        rw [serializeInlines_cons, mention_serial_append, parseInlinesGo,
          findMentionSplit_at_start _ _ _
            (parseMentionAt_eq la id ty mo _ hl' hi' ht' hm')]
        simp [ih rest hwfr hlen']

theorem parseInlines_serial (content : List MInline)
    (hwf : wfInlines content = true) :
    parseInlines (serializeInlines content) = content :=
  parseInlinesGo_serial _ content hwf (Nat.le_refl _)

theorem nil_isPrefixOf [DecidableEq α] (l : List α) :
    ([] : List α).isPrefixOf l = true := by
  cases l <;> rfl

theorem isPrefixOf_length_le [DecidableEq α] (pat l : List α)
    (h : pat.isPrefixOf l = true) : pat.length ≤ l.length := by
  induction pat generalizing l with
  | nil => simp
  | cons x xs ih =>
    cases l with
    | nil => cases h
    | cons c cs =>
      rw [List.isPrefixOf] at h
      have := (andE h).2
      have hlen := ih cs this
      simp
      omega

theorem isPrefixOf_append_eq [DecidableEq α] (pat a b : List α)
    (hlen : pat.length ≤ a.length) :
    pat.isPrefixOf (a ++ b) = pat.isPrefixOf a := by
  induction pat generalizing a with
  | nil =>
    rw [nil_isPrefixOf, nil_isPrefixOf]
  | cons x xs ih =>
    cases a with
    | nil => simp at hlen
    | cons c cs =>
      rw [List.cons_append, List.isPrefixOf, List.isPrefixOf,
        ih cs (by simpa using hlen)]

theorem isPrefixOf_cons_unfold (pat : List Char) (c : Char)
    (t : List Char) (hne : pat ≠ []) :
    pat.isPrefixOf (c :: t)
      = (pat.headI == c && pat.tail.isPrefixOf t) := by
  cases pat with
  | nil => exact absurd rfl hne
  | cons x xs => rfl

theorem fence_not_prefix_append (a b : List Char)
    (ha : ("```".data).isPrefixOf a = false)
    (hb : b = [] ∨ ∃ t, b = '@' :: t) :
    ("```".data).isPrefixOf (a ++ b) = false := by
  by_cases hlen : ("```".data).length ≤ a.length
  · rw [isPrefixOf_append_eq _ _ _ hlen]
    exact ha
  · rcases hb with rfl | ⟨t, rfl⟩
    · rw [List.append_nil]
      exact ha
    · rcases a with _ | ⟨c1, _ | ⟨c2, a'⟩⟩
      · rw [List.nil_append]
        exact isPrefixOf_false_of_head_ne _ _ _ (by decide) (by decide)
      · rw [List.cons_append, List.nil_append,
          isPrefixOf_cons_unfold _ _ _ (by decide)]
        rw [show ("```".data).tail.isPrefixOf ('@' :: t)
            = false from isPrefixOf_false_of_head_ne _ _ _
              (by decide) (by decide)]
        simp
      · have ha' : a' = [] := by
          have h3 : ("```".data).length = 3 := by decide
          have h4 : (c1 :: c2 :: a').length = a'.length + 2 := by
            rw [List.length_cons, List.length_cons]
          rw [h3, h4] at hlen
          exact List.length_eq_zero.mp (by omega)
        subst ha'
        rw [List.cons_append, List.cons_append, List.nil_append,
          isPrefixOf_cons_unfold _ _ _ (by decide)]
        by_cases hc1 : ("```".data).headI == c1
        · rw [hc1, isPrefixOf_cons_unfold _ _ _ (by decide)]
          by_cases hc2 : ("```".data).tail.headI == c2
          · rw [hc2,
              show ("```".data).tail.tail.isPrefixOf ('@' :: t) = false from
                isPrefixOf_false_of_head_ne _ _ _ (by decide) (by decide)]
            simp
          · rw [Bool.not_eq_true] at hc2
            rw [hc2]
            simp
        · rw [Bool.not_eq_true] at hc1
          rw [hc1]
          simp

theorem mem_splitBy_no_sep (p : α → Bool) :
    ∀ (l : List α), ∀ part ∈ splitBy p l, ∀ c ∈ part, p c = false := by
  intro l
  induction l with
  | nil =>
    intro part hp c hc
    simp [splitBy] at hp
    subst hp
    cases hc
  | cons a rest ih =>
    intro part hp c hc
    rw [splitBy] at hp
    rcases hs : splitBy p rest with _ | ⟨g, gs⟩
    · exact absurd hs (splitBy_ne_nil p rest)
    · rw [hs] at hp
      by_cases hpa : p a = true
      · simp only [hpa, eq_self_iff_true, if_true] at hp
        rcases List.mem_cons.mp hp with rfl | hp2
        · cases hc
        · exact ih part (hs ▸ hp2) c hc
      · rw [Bool.not_eq_true] at hpa
        simp only [hpa, Bool.false_eq_true, if_false] at hp
        rcases List.mem_cons.mp hp with rfl | hp2
        · rcases List.mem_cons.mp hc with rfl | hc2
          · exact hpa
          · exact ih g (hs ▸ List.mem_cons_self g gs) c hc2
        · exact ih part (hs ▸ List.mem_cons_of_mem g hp2) c hc

theorem mem_joinSep_sep (s : α) :
    ∀ (parts : List (List α)), ∀ x ∈ joinSep [s] parts,
      x = s ∨ ∃ part ∈ parts, x ∈ part := by
  intro parts
  induction parts with
  | nil =>
    intro x hx
    cases hx
  | cons g gs ih =>
    intro x hx
    cases gs with
    | nil =>
      right
      exact ⟨g, List.mem_cons_self g [], hx⟩
    | cons g2 gs' =>
      have hjoin : joinSep [s] (g :: g2 :: gs')
          = g ++ s :: joinSep [s] (g2 :: gs') := by
        simp [joinSep]
      rw [hjoin] at hx
      rcases List.mem_append.mp hx with hg | hrest
      · right
        exact ⟨g, List.mem_cons_self g _, hg⟩
      · rcases List.mem_cons.mp hrest with rfl | htail
        · left
          rfl
        · rcases ih x htail with he | ⟨part, hp, hxp⟩
          · left
            exact he
          · right
            exact ⟨part, List.mem_cons_of_mem g hp, hxp⟩

theorem joinSep_ne_nil (sep : List α) (g : List α)
    (gs : List (List α)) (hg : g ≠ []) : joinSep sep (g :: gs) ≠ [] := by
  cases gs with
  | nil => exact hg
  | cons g2 gs' =>
    have hjoin : joinSep sep (g :: g2 :: gs')
        = g ++ sep ++ joinSep sep (g2 :: gs') := by
      simp [joinSep]
    rw [hjoin]
    intro he
    rcases List.append_eq_nil.mp he with ⟨h1, -⟩
    rcases List.append_eq_nil.mp h1 with ⟨h2, -⟩
    exact hg h2

theorem parseLinkLine_not_bracket (l : List Char)
    (h : ¬ l.headI = '[') : parseLinkLine l = none := by
  cases l with
  | nil => rfl
  | cons c t =>
    rw [parseLinkLine, if_neg (by simpa using h)]

theorem stripCell_pad (part : List Char) :
    stripCell (' ' :: part ++ [' ']) = part := by
  simp [stripCell, List.getLast?_concat, List.dropLast_concat]

theorem wfMention_no_newline (id typ modelId label : String)
    (h : wfMention id typ modelId label = true) :
    '\n' ∉ id.data ∧ '\n' ∉ typ.data ∧ '\n' ∉ modelId.data ∧
      '\n' ∉ label.data := by
  rw [wfMention] at h
  simp only [Bool.and_eq_true] at h
  obtain ⟨⟨⟨⟨⟨⟨⟨h1, h2⟩, h3⟩, h4⟩, h5⟩, h6⟩, h7⟩, h8⟩ := h
  exact ⟨not_mem_of_not_contains _ _ h2, not_mem_of_not_contains _ _ h4,
    not_mem_of_not_contains _ _ h6, not_mem_of_not_contains _ _ h8⟩

theorem serializeInline_no_newline (i : MInline) (h : wfInline i = true) :
    '\n' ∉ serializeInline i := by
  cases i with
  | textI s => exact wfText_no_newline s h
  | mentionI id ty mo la =>
    obtain ⟨h1, h2, h3, h4⟩ := wfMention_no_newline id ty mo la h
    intro hm
    simp only [serializeInline, List.mem_cons, List.mem_append] at hm
    rcases hm with he | he | hm2
    · exact absurd he (by decide)
    · exact absurd he (by decide)
    rcases hm2 with hm3 | he | he | hm4
    · exact h4 hm3
    · exact absurd he (by decide)
    · exact absurd he (by decide)
    rcases hm4 with hm5 | hm6
    · exact absurd hm5 (by decide)
    rcases hm6 with hm7 | he | hm8
    · exact h1 hm7
    · exact absurd he (by decide)
    rcases hm8 with hm9 | he | hm10
    · exact h2 hm9
    · exact absurd he (by decide)
    rcases hm10 with hm11 | he
    · exact h3 hm11
    · exact absurd he (by decide)

theorem serializeInlines_no_newline (content : List MInline)
    (h : wfInlines content = true) :
    '\n' ∉ serializeInlines content := by
  induction content with
  | nil => simp [serializeInlines]
  | cons i rest ih =>
    rw [serializeInlines_cons]
    intro hm
    rcases List.mem_append.mp hm with h1 | h2
    · exact serializeInline_no_newline i (wfInlines_head _ _ h) h1
    · exact ih (wfInlines_rest _ _ h) h2

theorem serializeInlines_ne_nil (content : List MInline)
    (hwf : wfInlines content = true) (hne : content ≠ []) :
    serializeInlines content ≠ [] := by
  cases content with
  | nil => exact absurd rfl hne
  | cons i rest =>
    rw [serializeInlines_cons]
    intro he
    rcases List.append_eq_nil.mp he with ⟨h1, -⟩
    have := serializeInline_length_pos i (wfInlines_head _ _ hwf)
    rw [h1] at this
    simp at this

theorem parseBlockGroup_single_plain (L : List Char)
    (hf : ("```".data).isPrefixOf L = false)
    (hp : L.headI ≠ '|') (hh : L.headI ≠ '#') (hb : L.headI ≠ '[') :
    parseBlockGroup [L] = .paragraphB (parseInlines L) := by
  simp [parseBlockGroup, hf, hp, hh, parseLinkLine_not_bracket L hb,
    joinSep]

theorem serial_tail_shape (s : String) (rest : List MInline)
    (hwf : wfInlines (.textI s :: rest) = true) :
    serializeInlines rest = [] ∨
      ∃ t, serializeInlines rest = '@' :: t := by
  cases rest with
  | nil => exact Or.inl rfl
  | cons j r' =>
    cases j with
    | textI t => exact (wfInlines_not_adjacent s t r' hwf).elim
    | mentionI id ty mo la =>
      right
      rw [serializeInlines_cons]
      exact ⟨'[' :: (la.data ++ ']' :: '(' :: ("mention://".data ++
        (id.data ++ '/' :: (ty.data ++ '/' :: (mo.data ++ [')'])))))
        ++ serializeInlines r', by simp [serializeInline]⟩

theorem parseBlockGroup_paragraph (content : List MInline)
    (h : wfBlock (.paragraphB content) = true) :
    parseBlockGroup (serializeBlockLines (.paragraphB content))
      = .paragraphB content := by
  rw [wfBlock] at h
  simp only [Bool.and_eq_true] at h
  obtain ⟨⟨h1, h2⟩, h3⟩ := h
  have hcne : content ≠ [] := by
    intro he
    rw [he] at h1
    simp at h1
  rw [serializeBlockLines]
  cases content with
  | nil => exact absurd rfl hcne
  | cons i rest =>
    cases i with
    | textI s =>
      simp only [wfParagraphStart, Bool.and_eq_true] at h3
      obtain ⟨⟨⟨hph, hpp⟩, hpb⟩, hpf⟩ := h3
      replace hph : s.data.headI ≠ '#' := of_decide_eq_true hph
      replace hpp : s.data.headI ≠ '|' := of_decide_eq_true hpp
      replace hpb : s.data.headI ≠ '[' := of_decide_eq_true hpb
      replace hpf : ("```".data).isPrefixOf s.data = false := by
        rwa [Bool.not_eq_true'] at hpf
      have hwfs := wfInlines_head _ _ h2
      have hsne := wfText_ne_nil s hwfs
      have hL : serializeInlines (.textI s :: rest)
          = s.data ++ serializeInlines rest := by
        rw [serializeInlines_cons]
        rfl
      have hhead : (s.data ++ serializeInlines rest).headI
          = s.data.headI := by
        rcases hs : s.data with _ | ⟨c, cs⟩
        · exact absurd hs hsne
        · rfl
      have hfence := fence_not_prefix_append s.data
        (serializeInlines rest) hpf (serial_tail_shape s rest h2)
      rw [hL, parseBlockGroup_single_plain _ hfence
        (by rw [hhead]; exact hpp) (by rw [hhead]; exact hph)
        (by rw [hhead]; exact hpb), ← hL, parseInlines_serial _ h2]
    | mentionI id ty mo la =>
      have hL : serializeInlines (.mentionI id ty mo la :: rest)
          = '@' :: ('[' :: (la.data ++ ']' :: '(' :: ("mention://".data ++
            (id.data ++ '/' :: (ty.data ++ '/' :: (mo.data ++ [')'])))))
            ++ serializeInlines rest) := by
        rw [serializeInlines_cons]
        simp [serializeInline]
      rw [hL, parseBlockGroup_single_plain _
        (isPrefixOf_false_of_head_ne _ _ _ (by decide) (by decide))
        (by rw [headI_cons]; decide) (by rw [headI_cons]; decide)
        (by rw [headI_cons]; decide), ← hL, parseInlines_serial _ h2]

theorem parseBlockGroup_heading (level : Nat) (content : List MInline)
    (h : wfBlock (.headingB level content) = true) :
    parseBlockGroup (serializeBlockLines (.headingB level content))
      = .headingB level content := by
  rw [wfBlock] at h
  simp only [Bool.and_eq_true] at h
  obtain ⟨⟨h1, h2⟩, h3⟩ := h
  replace h1 : 1 ≤ level := of_decide_eq_true h1
  replace h2 : level ≤ 6 := of_decide_eq_true h2
  have hline : List.replicate level '#' ++ ' ' :: serializeInlines content
      = '#' :: (List.replicate (level - 1) '#' ++ ' ' ::
          serializeInlines content) := by
    obtain ⟨k, rfl⟩ : ∃ k, level = k + 1 := ⟨level - 1, by omega⟩
    rw [List.replicate_succ, List.cons_append]
    simp
  have htake : (List.replicate level '#' ++ ' ' ::
      serializeInlines content).takeWhile (fun c => decide (c = '#'))
      = List.replicate level '#' :=
    takeWhile_append_stop _ _ _ _
      (fun x hx => by rw [List.eq_of_mem_replicate hx]; decide)
      (by decide)
  have hdrop : (List.replicate level '#' ++ ' ' ::
      serializeInlines content).dropWhile (fun c => decide (c = '#'))
      = ' ' :: serializeInlines content :=
    dropWhile_append_stop _ _ _ _
      (fun x hx => by rw [List.eq_of_mem_replicate hx]; decide)
      (by decide)
  have hf : ("```".data).isPrefixOf (List.replicate level '#' ++ ' ' ::
      serializeInlines content) = false := by
    rw [hline]
    exact isPrefixOf_false_of_head_ne _ _ _ (by decide) (by decide)
  have hhead : (List.replicate level '#' ++ ' ' ::
      serializeInlines content).headI = '#' := by
    rw [hline, headI_cons]
  have hie : (List.replicate level '#' ++ ' ' ::
      serializeInlines content).isEmpty = false := by
    rw [hline]
    rfl
  rw [serializeBlockLines, parseBlockGroup, hf]
  simp only [Bool.false_eq_true, if_false]
  rw [hhead, hie]
  rw [if_neg (show ¬((decide (('#' : Char) = '|') && !false) = true)
    from by decide)]
  rw [if_pos (show (decide (('#' : Char) = '#') && !false) = true
    from by decide)]
  rw [htake, hdrop, List.length_replicate]
  rw [if_pos ⟨h2, rfl, by simp⟩]
  rw [show ((' ' : Char) :: serializeInlines content).drop 1
      = serializeInlines content from rfl, parseInlines_serial _ h3]

theorem parseBlockGroup_code (lang code : String)
    (h : wfBlock (.codeB lang code) = true) :
    parseBlockGroup (serializeBlockLines (.codeB lang code))
      = .codeB lang code := by
  rw [serializeBlockLines, parseBlockGroup,
    show ("```".data).isPrefixOf ("```".data ++ lang.data) = true from
      isPrefixOf_append_self _ _]
  simp only [if_true, eq_self_iff_true, if_pos]
  rw [show ("```".data ++ lang.data).drop 3 = lang.data from by
    rw [show (3 : Nat) = ("```".data).length from by decide, List.drop_left]]
  rw [List.getLast?_concat]
  rw [if_pos rfl, List.dropLast_concat,
    joinSep_splitBy _ '\n' code.data
      (fun x hx => of_decide_eq_true hx)]

theorem map_id_of_eq (l : List α) (f : α → α) (h : ∀ x ∈ l, f x = x) :
    l.map f = l := by
  induction l with
  | nil => rfl
  | cons a t ih =>
    rw [List.map_cons, h a (List.mem_cons_self a t),
      ih (fun x hx => h x (List.mem_cons_of_mem a hx))]

theorem pad_no_pipe (p : List Char) (hp : ('|') ∉ p) :
    ∀ x ∈ ' ' :: p ++ [' '], (fun c => decide (c = '|')) x = false := by
  intro x hx
  rcases List.mem_cons.mp hx with rfl | hx2
  · decide
  rcases List.mem_append.mp hx2 with hxp | hxs
  · exact decide_eq_false (fun he => hp (he ▸ hxp))
  · rw [List.mem_singleton.mp hxs]
    decide

theorem splitRow_aux : ∀ (parts : List (List Char)), parts ≠ [] →
    (∀ part ∈ parts, ('|') ∉ part) →
    splitBy (fun c => decide (c = '|'))
      (' ' :: (joinSep " | ".data parts ++ " |".data))
      = parts.map (fun part => ' ' :: part ++ [' ']) ++ [[]] := by
  intro parts
  induction parts with
  | nil =>
    intro hne _
    exact absurd rfl hne
  | cons p ps ih =>
    intro _ hnp
    cases ps with
    | nil =>
      rw [show joinSep " | ".data [p] = p from rfl]
      have hshape : ' ' :: (p ++ " |".data)
          = (' ' :: p ++ [' ']) ++ '|' :: [] := by
        rw [show " |".data = [' ', '|'] from rfl]
        simp
      rw [hshape, splitBy_append_sep _ _ _ _
        (pad_no_pipe p (hnp p (List.mem_cons_self p []))) (by decide)]
      rfl
    | cons p2 ps' =>
      have hshape : ' ' :: (joinSep " | ".data (p :: p2 :: ps') ++ " |".data)
          = (' ' :: p ++ [' ']) ++ '|' ::
            (' ' :: (joinSep " | ".data (p2 :: ps') ++ " |".data)) := by
        have hj : joinSep " | ".data (p :: p2 :: ps')
            = p ++ " | ".data ++ joinSep " | ".data (p2 :: ps') := by
          simp [joinSep]
        rw [hj, show " | ".data = [' ', '|', ' '] from rfl]
        simp
      rw [hshape, splitBy_append_sep _ _ _ _
        (pad_no_pipe p (hnp p (List.mem_cons_self p _))) (by decide),
        ih (List.cons_ne_nil p2 ps')
          (fun q hq => hnp q (List.mem_cons_of_mem p hq))]
      rfl

theorem parseRowCells_serializeRow (cells : List String)
    (hne : cells ≠ []) (hnp : ∀ c ∈ cells, ('|') ∉ c.data) :
    parseRowCells (serializeRow cells) = cells := by
  have hser : serializeRow cells = '|' :: (' ' ::
      (joinSep " | ".data (cells.map String.data) ++ " |".data)) := by
    rw [serializeRow, show "| ".data = ['|', ' '] from rfl]
    simp
  have hm : ∀ part ∈ cells.map String.data, ('|') ∉ part := by
    intro part hp
    obtain ⟨c, hc, rfl⟩ := List.mem_map.mp hp
    exact hnp c hc
  have hmapne : cells.map String.data ≠ [] := by
    intro he
    exact hne (List.map_eq_nil_iff.mp he)
  simp only [parseRowCells]
  rw [hser, splitBy_cons_sep _ _ _ (by decide),
    splitRow_aux (cells.map String.data) hmapne hm]
  rw [show (([] : List Char) :: ((cells.map String.data).map
      (fun part => ' ' :: part ++ [' ']) ++ [[]])).drop 1
      = (cells.map String.data).map (fun part => ' ' :: part ++ [' '])
        ++ [[]] from rfl,
    List.dropLast_concat, List.map_map]
  rw [List.map_map]
  exact map_id_of_eq cells _ (fun c _ => by
    show String.mk (stripCell (' ' :: c.data ++ [' '])) = c
    rw [stripCell_pad])

theorem parseBlockGroup_table (rows : List (List String))
    (h : wfBlock (.tableB rows) = true) :
    parseBlockGroup (serializeBlockLines (.tableB rows))
      = .tableB rows := by
  rw [wfBlock] at h
  simp only [Bool.and_eq_true] at h
  obtain ⟨h1, h2⟩ := h
  have hrow : ∀ row ∈ rows, parseRowCells (serializeRow row) = row := by
    intro row hr
    have hx := List.all_eq_true.mp h2 row hr
    simp only [Bool.and_eq_true] at hx
    obtain ⟨hx1, hx2⟩ := hx
    refine parseRowCells_serializeRow row ?_ ?_
    · intro he
      rw [he] at hx1
      simp at hx1
    · intro c hc
      have hy := List.all_eq_true.mp hx2 c hc
      simp only [Bool.and_eq_true] at hy
      exact not_mem_of_not_contains _ _ hy.1
  cases rows with
  | nil => simp at h1
  | cons r0 rows' =>
    have hser : serializeRow r0 = '|' :: (' ' ::
        (joinSep " | ".data (r0.map String.data) ++ " |".data)) := by
      rw [serializeRow, show "| ".data = ['|', ' '] from rfl]
      simp
    rw [serializeBlockLines, List.map_cons, parseBlockGroup]
    rw [show ("```".data).isPrefixOf (serializeRow r0) = false from by
      rw [hser]
      exact isPrefixOf_false_of_head_ne _ _ _ (by decide) (by decide)]
    simp only [Bool.false_eq_true, if_false]
    rw [show (serializeRow r0).headI = '|' from by rw [hser, headI_cons],
      show (serializeRow r0).isEmpty = false from by rw [hser]; rfl]
    rw [if_pos (show (decide (('|' : Char) = '|') && !false) = true
      from by decide)]
    rw [show (serializeRow r0 :: rows'.map serializeRow).map parseRowCells
        = (r0 :: rows').map (fun row => parseRowCells (serializeRow row))
      from by rw [← List.map_cons serializeRow r0 rows', List.map_map]; rfl]
    rw [map_id_of_eq _ _ hrow]

theorem parseBlockGroup_attachment (href title : String) (size : Nat)
    (h : wfBlock (.attachmentB href title size) = true) :
    parseBlockGroup (serializeBlockLines (.attachmentB href title size))
      = .attachmentB href title size := by
  rw [wfBlock] at h
  simp only [Bool.and_eq_true] at h
  obtain ⟨⟨⟨⟨⟨⟨c1, c2⟩, c3⟩, c4⟩, c5⟩, c6⟩, c7⟩ := h
  replace c1 : trimChars title.data = title.data := of_decide_eq_true c1
  have c6' : href.data.contains ')' = false := by
    rwa [Bool.not_eq_true'] at c6
  have hdne : title.data ≠ [] := by
    intro he
    rw [he] at c2
    simp at c2
  have hnl : '\n' ∉ title.data := not_mem_of_not_contains _ _ c3
  have hnb : ']' ∉ title.data := not_mem_of_not_contains _ _ c4
  obtain ⟨hd1, hd2, hd3⟩ := natDigits_spec size
  have hmem : ']' ∉ title.data ++ ' ' :: natDigits size := by
    intro hm
    rcases List.mem_append.mp hm with h1 | h2
    · exact hnb h1
    rcases List.mem_cons.mp h2 with he | h3
    · exact absurd he (by decide)
    · exact all_digits_not_mem _ _ hd2 (by decide) h3
  have hplink : parseLinkLine ('[' ::
      ((title.data ++ ' ' :: natDigits size)
        ++ ']' :: '(' :: (href.data ++ [')'])))
      = some ⟨some href,
          String.mk (title.data ++ ' ' :: natDigits size)⟩ := by
    rw [parseLinkLine, if_pos rfl,
      show "](".data = [']', '('] from rfl,
      splitFirstSub_pair _ _ _ _ hmem]
    simp only [List.getLast?_concat, List.dropLast_concat]
    rw [if_pos ⟨trivial, by
      intro hcc
      rw [c6'] at hcc
      exact Bool.noConfusion hcc⟩]
  have hlast := trimChars_fixed_getLast _ c1
  have hn := jsPdfMatch_generic_none title.data (natDigits size) hd2 hlast
  have hm2 := jsGenericMatch_eq title.data (natDigits size) hd1 hd2 hnl hlast
  have hatt : attachmentGetAttrs
      ⟨some href, String.mk (title.data ++ ' ' :: natDigits size)⟩
      = ⟨some href, title, size⟩ := by
    simp only [attachmentGetAttrs, hn, hm2, c1, hd3,
      attachmentTitleOf_nonempty (some href) title.data hdne]
  have hline : serializeBlockLines (.attachmentB href title size)
      = ['[' :: ((title.data ++ ' ' :: natDigits size)
          ++ ']' :: '(' :: (href.data ++ [')']))] := by
    rw [serializeBlockLines, show "](".data = [']', '('] from rfl]
    simp
  rw [hline, parseBlockGroup]
  rw [show ("```".data).isPrefixOf ('[' ::
      ((title.data ++ ' ' :: natDigits size)
        ++ ']' :: '(' :: (href.data ++ [')']))) = false from
    isPrefixOf_false_of_head_ne _ _ _ (by decide) (by decide)]
  simp only [headI_cons,
    show (decide (('[' : Char) = '|')) = false from by decide,
    show (decide (('[' : Char) = '#')) = false from by decide,
    Bool.false_and, Bool.false_eq_true, if_false, hplink]
  rw [if_pos ⟨rfl, c5⟩, hatt]
  rfl

theorem mem_joinSep (sep : List α) :
    ∀ (parts : List (List α)), ∀ x ∈ joinSep sep parts,
      x ∈ sep ∨ ∃ part ∈ parts, x ∈ part := by
  intro parts
  induction parts with
  | nil =>
    intro x hx
    cases hx
  | cons g gs ih =>
    intro x hx
    cases gs with
    | nil =>
      right
      exact ⟨g, List.mem_cons_self g [], hx⟩
    | cons g2 gs' =>
      have hjoin : joinSep sep (g :: g2 :: gs')
          = g ++ sep ++ joinSep sep (g2 :: gs') := by
        simp [joinSep]
      rw [hjoin] at hx
      rcases List.mem_append.mp hx with h12 | h3
      · rcases List.mem_append.mp h12 with h1 | h2
        · right
          exact ⟨g, List.mem_cons_self g _, h1⟩
        · left
          exact h2
      · rcases ih x h3 with hs | ⟨part, hp, hxp⟩
        · left
          exact hs
        · right
          exact ⟨part, List.mem_cons_of_mem g hp, hxp⟩

theorem isEmpty_false_of_ne_nil (l : List α) (h : l ≠ []) :
    l.isEmpty = false := by
  cases l with
  | nil => exact absurd rfl h
  | cons a t => rfl

theorem isEmpty_append_cons (a : List α) (c : α) (t : List α) :
    (a ++ c :: t).isEmpty = false := by
  cases a <;> rfl

theorem blockLines_ne_nil (b : MBlock) (h : wfBlock b = true) :
    serializeBlockLines b ≠ [] := by
  cases b with
  | paragraphB content => simp [serializeBlockLines]
  | headingB level content => simp [serializeBlockLines]
  | codeB lang code => simp [serializeBlockLines]
  | tableB rows =>
    rw [wfBlock] at h
    simp only [Bool.and_eq_true] at h
    obtain ⟨h1, -⟩ := h
    rw [serializeBlockLines]
    cases rows with
    | nil => simp at h1
    | cons r rs => simp
  | attachmentB href title size => simp [serializeBlockLines]

theorem blockLines_nonempty (b : MBlock) (h : wfBlock b = true) :
    ∀ line ∈ serializeBlockLines b, line.isEmpty = false := by
  cases b with
  | paragraphB content =>
    rw [wfBlock] at h
    simp only [Bool.and_eq_true] at h
    obtain ⟨⟨h1, h2⟩, -⟩ := h
    intro line hl
    rw [serializeBlockLines] at hl
    rw [List.mem_singleton.mp hl]
    exact isEmpty_false_of_ne_nil _ (serializeInlines_ne_nil content h2
      (by intro he; rw [he] at h1; simp at h1))
  | headingB level content =>
    intro line hl
    rw [serializeBlockLines] at hl
    rw [List.mem_singleton.mp hl]
    exact isEmpty_append_cons _ _ _
  | codeB lang code =>
    rw [wfBlock] at h
    simp only [Bool.and_eq_true] at h
    obtain ⟨-, h3⟩ := h
    intro line hl
    rw [serializeBlockLines] at hl
    rcases List.mem_cons.mp hl with rfl | hl2
    · rfl
    rcases List.mem_append.mp hl2 with hbody | hfence
    · have h5 := List.all_eq_true.mp h3 line hbody
      simp only [Bool.and_eq_true] at h5
      have h4 := h5.1
      rwa [Bool.not_eq_true'] at h4
    · rw [List.mem_singleton.mp hfence]
      rfl
  | tableB rows =>
    intro line hl
    rw [serializeBlockLines] at hl
    obtain ⟨row, hrow, rfl⟩ := List.mem_map.mp hl
    rw [serializeRow]
    rfl
  | attachmentB href title size =>
    intro line hl
    rw [serializeBlockLines] at hl
    rw [List.mem_singleton.mp hl]
    rfl

theorem blockLines_no_newline (b : MBlock) (h : wfBlock b = true) :
    ∀ line ∈ serializeBlockLines b, '\n' ∉ line := by
  cases b with
  | paragraphB content =>
    rw [wfBlock] at h
    simp only [Bool.and_eq_true] at h
    obtain ⟨⟨-, h2⟩, -⟩ := h
    intro line hl
    rw [serializeBlockLines] at hl
    rw [List.mem_singleton.mp hl]
    exact serializeInlines_no_newline content h2
  | headingB level content =>
    rw [wfBlock] at h
    simp only [Bool.and_eq_true] at h
    obtain ⟨-, h3⟩ := h
    intro line hl
    rw [serializeBlockLines] at hl
    rw [List.mem_singleton.mp hl]
    intro hm
    rcases List.mem_append.mp hm with h1 | h2
    · exact absurd (List.eq_of_mem_replicate h1) (by decide)
    rcases List.mem_cons.mp h2 with he | h3m
    · exact absurd he (by decide)
    · exact serializeInlines_no_newline content h3 h3m
  | codeB lang code =>
    rw [wfBlock] at h
    simp only [Bool.and_eq_true] at h
    obtain ⟨⟨hlang, -⟩, -⟩ := h
    intro line hl
    rw [serializeBlockLines] at hl
    rcases List.mem_cons.mp hl with rfl | hl2
    · intro hm
      rcases List.mem_append.mp hm with h1 | h2
      · exact absurd h1 (by decide)
      · exact not_mem_of_not_contains _ _ hlang h2
    rcases List.mem_append.mp hl2 with hbody | hfence
    · intro hm
      have := mem_splitBy_no_sep _ code.data line hbody '\n' hm
      simp at this
    · rw [List.mem_singleton.mp hfence]
      decide
  | tableB rows =>
    rw [wfBlock] at h
    simp only [Bool.and_eq_true] at h
    obtain ⟨-, h2⟩ := h
    intro line hl
    rw [serializeBlockLines] at hl
    obtain ⟨row, hrow, rfl⟩ := List.mem_map.mp hl
    have hcells := List.all_eq_true.mp h2 row hrow
    simp only [Bool.and_eq_true] at hcells
    obtain ⟨-, hcells⟩ := hcells
    rw [serializeRow]
    intro hm
    rcases List.mem_append.mp hm with h12 | h3
    rcases List.mem_append.mp h12 with h1 | h2m
    · exact absurd h1 (by decide)
    · rcases mem_joinSep _ _ _ h2m with hs | ⟨part, hp, hxp⟩
      · exact absurd hs (by decide)
      · obtain ⟨cell, hc, rfl⟩ := List.mem_map.mp hp
        have hcl := List.all_eq_true.mp hcells cell hc
        simp only [Bool.and_eq_true] at hcl
        exact not_mem_of_not_contains _ _ hcl.2 hxp
    · exact absurd h3 (by decide)
  | attachmentB href title size =>
    rw [wfBlock] at h
    simp only [Bool.and_eq_true] at h
    obtain ⟨⟨⟨⟨⟨⟨-, -⟩, c3⟩, -⟩, -⟩, -⟩, c7⟩ := h
    obtain ⟨-, hd2, -⟩ := natDigits_spec size
    intro line hl
    rw [serializeBlockLines] at hl
    rw [List.mem_singleton.mp hl]
    intro hm
    rcases List.mem_cons.mp hm with he | hm1
    · exact absurd he (by decide)
    rcases List.mem_append.mp hm1 with hABH | hcl
    · rcases List.mem_append.mp hABH with hAP | hh
      · rcases List.mem_append.mp hAP with hA | hbr
        · rcases List.mem_append.mp hA with ht | hsd
          · exact not_mem_of_not_contains _ _ c3 ht
          rcases List.mem_cons.mp hsd with he | hdig
          · exact absurd he (by decide)
          · exact all_digits_not_mem _ _ hd2 (by decide) hdig
        · exact absurd hbr (by decide)
      · exact not_mem_of_not_contains _ _ c7 hh
    · exact absurd hcl (by decide)

/-- C1 counterexample: an attachment whose stored title is empty does
not survive the round trip — `getAttrs` falls back to deriving the
title from the href's last path segment, so the reparsed tree carries
title `"attachments.redirect"` instead of `""` and the tree changes. -/
theorem roundtrip_counterexample :
    attachmentTitles emptyTitleDoc = [""] ∧
    attachmentTitles (fromMarkdown (toMarkdown emptyTitleDoc))
      = ["attachments.redirect"] ∧
    fromMarkdown (toMarkdown emptyTitleDoc) ≠ emptyTitleDoc := by
  refine ⟨by decide, by decide, by decide⟩

/-- C1 (amended): Markdown round-trip.  For every well-formed tree —
nonempty; paragraphs of nonempty newline-free texts without `@[` and
not starting like another block, and of mentions whose id/type contain
no `/`, model id no `)`, label no `]`; headings of level 1–6; code
blocks with nonempty fence-free lines; tables of nonempty rows of
`|`-free cells; attachments with a trim-stable nonempty title free of
`]` and a redirect href free of `)` — `fromMarkdown (toMarkdown doc)`
reconstructs the tree exactly, preserving all text content, mention
id/type/modelId/label, and attachment href/title/size.  The
unrestricted claim fails: see `roundtrip_counterexample`. -/
theorem markdown_roundtrip (doc : List MBlock)
    (h : wfDoc doc = true) : fromMarkdown (toMarkdown doc) = doc := by
  rw [wfDoc] at h
  simp only [Bool.and_eq_true] at h
  obtain ⟨h1, h2⟩ := h
  have hwfb : ∀ b ∈ doc, wfBlock b = true := List.all_eq_true.mp h2
  have hdocne : doc ≠ [] := by
    intro he
    rw [he] at h1
    simp at h1
  have hlinesne : toMarkdownLines doc ≠ [] := by
    cases doc with
    | nil => exact absurd rfl hdocne
    | cons b0 doc' =>
      rw [toMarkdownLines, List.map_cons]
      exact joinSep_ne_nil _ _ _
        (blockLines_ne_nil b0 (hwfb b0 (List.mem_cons_self b0 doc')))
  have hnonl : ∀ line ∈ toMarkdownLines doc, ∀ x ∈ line,
      (fun c => decide (c = '\n')) x = false := by
    intro line hl x hx
    rw [toMarkdownLines] at hl
    rcases mem_joinSep _ _ line hl with hsep | ⟨part, hp, hlp⟩
    · rw [List.mem_singleton.mp hsep] at hx
      cases hx
    · obtain ⟨b, hb, rfl⟩ := List.mem_map.mp hp
      exact decide_eq_false (fun he =>
        blockLines_no_newline b (hwfb b hb) line hlp (he ▸ hx))
  have hlinefacts : ∀ group ∈ doc.map serializeBlockLines,
      ∀ line ∈ group, (fun l : List Char => l.isEmpty) line = false := by
    intro group hg line hl
    obtain ⟨b, hb, rfl⟩ := List.mem_map.mp hg
    exact blockLines_nonempty b (hwfb b hb) line hl
  have hmapne : doc.map serializeBlockLines ≠ [] := by
    intro he
    exact hdocne (List.map_eq_nil_iff.mp he)
  rw [toMarkdown, fromMarkdown]
  rw [show (String.mk (joinSep ['\n'] (toMarkdownLines doc))).data
      = joinSep ['\n'] (toMarkdownLines doc) from rfl]
  rw [splitBy_joinSep _ '\n' (toMarkdownLines doc) (by decide)
    hnonl hlinesne]
  rw [toMarkdownLines]
  rw [splitBy_joinSep _ ([] : List Char) (doc.map serializeBlockLines)
    (by rfl) hlinefacts hmapne]
  rw [List.map_map]
  exact map_id_of_eq doc _ (fun b hb => by
    have hw := hwfb b hb
    show parseBlockGroup (serializeBlockLines b) = b
    cases b with
    | paragraphB content => exact parseBlockGroup_paragraph content hw
    | headingB level content => exact parseBlockGroup_heading level content hw
    | codeB lang code => exact parseBlockGroup_code lang code hw
    | tableB rows => exact parseBlockGroup_table rows hw
    | attachmentB href title size =>
      exact parseBlockGroup_attachment href title size hw)

theorem markdown_roundtrip_witness :
    wfDoc exemplarDoc = true ∧
    fromMarkdown (toMarkdown exemplarDoc) = exemplarDoc :=
  ⟨by decide, markdown_roundtrip exemplarDoc (by decide)⟩

end Spec2Proof
